import Mathlib

/-! A verification development for `queue.c`.

The queue of `queue.c` is a singly linked chain of `list_ele_t` cells that live
in the C heap, together with a `queue_t` record caching `head`, `tail` and
`size`.  The embedding keeps the pointers: a heap is a finite table of cells
indexed by address, a pointer is an optional address (`none` is `NULL`), and
every function of `queue.c` is a function on heaps and queue records.

* Dereferencing `NULL` or a freed or unallocated address is `Res.fault`.
* The loops of `q_reverse`, `divide_and_conquer` and `q_sort` take a fuel
  argument; running out of it is `Res.outOfFuel`.
* `malloc` either fails (an input flag of the caller) or returns the first
  address past the table; `free` marks the cell as dead.
* `strnatcmp` is defined in `strnatcmp.c`, which is not part of the sources
  at hand; it is a parameter `cmp` of the sort.
* The `size` field is declared in `queue.h`, which is not part of the sources
  at hand either; it is a natural number here, the count of the cells, and
  `q_size` converts it to the `int` it returns.
* `q_remove_head` records the writes through the caller's buffer. When
  `BufferOk` holds of the buffer and `bufsize` every write falls inside the
  buffer; otherwise the call overruns the buffer, which the record of writes
  shows and after which the C program has no defined behaviour.
-/

namespace QueueC

/-! ## Data model -/

/-- A C string, given by its bytes before the terminating NUL. -/
abbrev CStr := List Nat

/-- A pointer to a list element; `none` is `NULL`. -/
abbrev Ptr := Option Nat

/-- Linked list element: the owned string and the link to the next element. -/
structure list_ele_t where
  value : CStr
  next : Ptr
deriving DecidableEq, Repr

/-- Queue record: first element, last element, number of elements. -/
structure queue_t where
  head : Ptr
  tail : Ptr
  size : Nat
deriving DecidableEq, Repr

/-- The heap of list elements: entry `a` is the cell at address `a`, `none`
once it has been freed. Addresses past the end are unallocated. -/
abbrev Heap := List (Option list_ele_t)

/-- Outcome of running a piece of C code. -/
inductive Res (α : Type) where
  | ok (a : α)
  | fault
  | outOfFuel
deriving DecidableEq, Repr

/-- Sequencing of outcomes. -/
def Res.bind {α β : Type} (r : Res α) (f : α → Res β) : Res β :=
  match r with
  | .ok a => f a
  | .fault => .fault
  | .outOfFuel => .outOfFuel

instance : Monad Res where
  pure := Res.ok
  bind := Res.bind

/-- `size_t` arithmetic is modulo this number. -/
def SIZE_MOD : Nat := 2 ^ 64

/-! ## Heap access -/

/-- The live cell at address `a`, if any. -/
def cell (m : Heap) (a : Nat) : Option list_ele_t := (m[a]?).join

/-- Read through a pointer: `p->...`. -/
def load (m : Heap) (p : Ptr) : Res list_ele_t :=
  match p with
  | none => .fault
  | some a =>
    match cell m a with
    | some c => .ok c
    | none => .fault

/-- Assignment `p->next = nx`. -/
def store_next (m : Heap) (p : Ptr) (nx : Ptr) : Res Heap :=
  match p with
  | none => .fault
  | some a =>
    match cell m a with
    | some c => .ok (m.set a (some { c with next := nx }))
    | none => .fault

/-- Release of a list element together with its string. -/
def free (m : Heap) (a : Nat) : Heap := m.set a none

/-! ## The functions of `queue.c` -/

/-- `q_new`: the flag says whether `malloc` succeeded. -/
def q_new (okQueue : Bool) : Option queue_t :=
  if okQueue then some { head := none, tail := none, size := 0 } else none

/-- `q_insert_head`: the flags say whether the two calls of `malloc`
succeeded. Returns the result, the heap and the queue. -/
def q_insert_head (m : Heap) (q : Option queue_t) (s : CStr) (okNode okValue : Bool) :
    Bool × Heap × Option queue_t :=
  match q with
  | none => (false, m, none)
  | some q =>
    if !okNode then (false, m, some q)
    else if !okValue then (false, m ++ [none], some q)
    else
      let newh := m.length
      let m1 := m ++ [some { value := s, next := q.head }]
      if q.size = 0 then
        (true, m1, some { head := some newh, tail := some newh, size := q.size + 1 })
      else
        (true, m1, some { head := some newh, tail := q.tail, size := q.size + 1 })

/-- `q_insert_tail`. -/
def q_insert_tail (m : Heap) (q : Option queue_t) (s : CStr) (okNode okValue : Bool) :
    Res (Bool × Heap × Option queue_t) :=
  match q with
  | none => .ok (false, m, none)
  | some q =>
    if !okNode then .ok (false, m, some q)
    else if !okValue then .ok (false, m ++ [none], some q)
    else
      let newt := m.length
      let m1 := m ++ [some { value := s, next := none }]
      if q.size = 0 then
        .ok (true, m1, some { head := some newt, tail := some newt, size := q.size + 1 })
      else do
        let m2 ← store_next m1 q.tail (some newt)
        .ok (true, m2, some { head := q.head, tail := some newt, size := q.size + 1 })

/-- The byte writes of `strncpy(dst, src, n)`, as (index, byte) pairs in
order: exactly `n` bytes are written, the bytes of `src` and then NUL
padding. -/
def strncpy (src : CStr) (n : Nat) : List (Nat × Nat) :=
  (List.range n).map fun i => (i, src.getD i 0)

/-- Effect of a sequence of byte writes on a buffer. -/
def applyWrites (buf : List Nat) (ws : List (Nat × Nat)) : List Nat :=
  ws.foldl (fun b w => b.set w.1 w.2) buf

/-- What `q_remove_head` leaves behind. -/
structure Removed where
  ret : Bool
  heap : Heap
  q : Option queue_t
  writes : List (Nat × Nat)
  sp : Option (List Nat)
deriving DecidableEq, Repr

/-- `q_remove_head`: `sp` is the caller's buffer (`none` is `NULL`) and
`bufsize` a `size_t`. The result records the writes through `sp`, each with
its index: the indices `strncpy` fills and the index of the terminator. A
write at an index outside the buffer is an overrun of the buffer by the code;
it stays in `writes` and the field `sp` shows only the bytes of the buffer
itself. Under `BufferOk sp bufsize` no write is outside the buffer. -/
def q_remove_head (m : Heap) (q : Option queue_t) (sp : Option (List Nat)) (bufsize : Nat) :
    Res Removed :=
  match q with
  | none => .ok { ret := false, heap := m, q := none, writes := [], sp := sp }
  | some q =>
    if q.size = 0 then .ok { ret := false, heap := m, q := some q, writes := [], sp := sp }
    else do
      let hd ← load m q.head
      let ws : List (Nat × Nat) :=
        match sp with
        | none => []
        | some _ =>
          strncpy hd.value ((bufsize + SIZE_MOD - 1) % SIZE_MOD)
            ++ [((bufsize + SIZE_MOD - 1) % SIZE_MOD, 0)]
      let size1 := q.size - 1
      let m1 :=
        match q.head with
        | some a => free m a
        | none => m
      .ok { ret := true, heap := m1,
            q := some { head := hd.next, tail := if size1 = 0 then hd.next else q.tail,
                        size := size1 },
            writes := ws, sp := sp.map fun b => applyWrites b ws }

/-- The value of a count as a C `int` of 32 bits: counts up to `INT_MAX` are
kept, larger ones wrap around modulo `2 ^ 32`. -/
def to_int (n : Nat) : Int := (((n + 2 ^ 31) % 2 ^ 32 : Nat) : Int) - 2 ^ 31

/-- The buffer argument of a call of `q_remove_head` is usable: no buffer, or
a buffer of at least `bufsize` bytes with `bufsize` a non-zero `size_t`. Every
write of the call then falls inside the buffer. -/
def BufferOk (sp : Option (List Nat)) (bufsize : Nat) : Prop :=
  match sp with
  | none => True
  | some buf => 1 ≤ bufsize ∧ bufsize ≤ buf.length ∧ bufsize < SIZE_MOD

instance (sp : Option (List Nat)) (bufsize : Nat) : Decidable (BufferOk sp bufsize) :=
  match sp with
  | none => isTrue trivial
  | some buf =>
    inferInstanceAs (Decidable (1 ≤ bufsize ∧ bufsize ≤ buf.length ∧ bufsize < SIZE_MOD))

/-- `q_size`: returns an `int`. -/
def q_size (q : Option queue_t) : Int :=
  match q with
  | none => 0
  | some q => to_int q.size

/-- The loop of `q_reverse`, from the state `prev`, `cur`. -/
def reverse_loop : Nat → Heap → Ptr → Ptr → Res Heap
  | 0, _, _, _ => .outOfFuel
  | fuel + 1, m, prev, cur =>
    match cur with
    | none => .ok m
    | some _ => do
      let c ← load m cur
      let m1 ← store_next m cur prev
      reverse_loop fuel m1 cur c.next

/-- `q_reverse`. -/
def q_reverse (fuel : Nat) (m : Heap) (q : Option queue_t) : Res (Heap × Option queue_t) :=
  match q with
  | none => .ok (m, none)
  | some q =>
    if q.size = 0 then .ok (m, some q)
    else do
      let m1 ← reverse_loop fuel m none q.head
      .ok (m1, some { head := q.tail, tail := q.head, size := q.size })

/-- The fast/slow walk of `divide_and_conquer`; returns the final `left`. -/
def split_loop : Nat → Heap → Ptr → Ptr → Res Ptr
  | 0, _, _, _ => .outOfFuel
  | fuel + 1, m, left, right =>
    match right with
    | none => .ok left
    | some _ => do
      let rc ← load m right
      match rc.next with
      | none => .ok left
      | some _ => do
        let lc ← load m left
        let rn ← load m rc.next
        split_loop fuel m lc.next rn.next

/-- Local variables of the merge loop of `divide_and_conquer`. -/
structure MergeState where
  heap : Heap
  head : Ptr
  merge : Ptr
  left : Ptr
  right : Ptr
deriving DecidableEq, Repr

/-- The merge loop of `divide_and_conquer`. -/
def merge_loop (cmp : CStr → CStr → Int) : Nat → MergeState → Res MergeState
  | 0, _ => .outOfFuel
  | fuel + 1, s =>
    match s.left, s.right with
    | some _, some _ => do
      let lc ← load s.heap s.left
      let rc ← load s.heap s.right
      if cmp lc.value rc.value < 0 then
        match s.merge with
        | none =>
          merge_loop cmp fuel
            { heap := s.heap, head := s.left, merge := s.left, left := lc.next,
              right := s.right }
        | some _ => do
          let m1 ← store_next s.heap s.merge s.left
          let mc ← load m1 s.merge
          let lc1 ← load m1 s.left
          merge_loop cmp fuel
            { heap := m1, head := s.head, merge := mc.next, left := lc1.next,
              right := s.right }
      else
        match s.merge with
        | none =>
          merge_loop cmp fuel
            { heap := s.heap, head := s.right, merge := s.right, left := s.left,
              right := rc.next }
        | some _ => do
          let m1 ← store_next s.heap s.merge s.right
          let mc ← load m1 s.merge
          let rc1 ← load m1 s.right
          merge_loop cmp fuel
            { heap := m1, head := s.head, merge := mc.next, left := s.left,
              right := rc1.next }
    | _, _ => .ok s

/-- The expression `left ? left : right ? right : NULL`. -/
def remainder (left right : Ptr) : Ptr :=
  match left with
  | some _ => left
  | none =>
    match right with
    | some _ => right
    | none => none

/-- `divide_and_conquer`, with `strnatcmp` as the parameter `cmp`. The fuel
bounds the depth of the recursion and the length of each loop. -/
def divide_and_conquer (cmp : CStr → CStr → Int) : Nat → Heap → Ptr → Res (Heap × Ptr)
  | 0, _, _ => .outOfFuel
  | fuel + 1, m, head =>
    match head with
    | none => .ok (m, head)
    | some _ => do
      let hc ← load m head
      match hc.next with
      | none => .ok (m, head)
      | some _ => do
        let left ← split_loop fuel m head hc.next
        let lc ← load m left
        let right := lc.next
        let m1 ← store_next m left none
        let (m2, left) ← divide_and_conquer cmp fuel m1 head
        let (m3, right) ← divide_and_conquer cmp fuel m2 right
        let s ← merge_loop cmp fuel
          { heap := m3, head := head, merge := none, left := left, right := right }
        let m4 ← store_next s.heap s.merge (remainder s.left s.right)
        .ok (m4, s.head)

/-- The walk of `q_sort` to the last element. -/
def tail_loop : Nat → Heap → Ptr → Res Ptr
  | 0, _, _ => .outOfFuel
  | fuel + 1, m, tmp => do
    let c ← load m tmp
    match c.next with
    | none => .ok tmp
    | some _ => tail_loop fuel m c.next

/-- `q_sort`, with `strnatcmp` as the parameter `cmp`. -/
def q_sort (cmp : CStr → CStr → Int) (fuel : Nat) (m : Heap) (q : Option queue_t) :
    Res (Heap × Option queue_t) :=
  match q with
  | none => .ok (m, none)
  | some q =>
    if q.size = 0 then .ok (m, some q)
    else if q.size = 1 then .ok (m, some q)
    else do
      let (m1, head) ← divide_and_conquer cmp fuel m q.head
      let tmp ← tail_loop fuel m1 head
      .ok (m1, some { head := head, tail := tmp, size := q.size })

/-! ## Reading the heap as lists -/

/-- Starting at `p` and following `next`, the cells visited are those at the
addresses `xs`, all live, and the link leaving the last one is `e`. -/
def Seg (m : Heap) : Ptr → List Nat → Ptr → Prop
  | p, [], e => p = e
  | p, a :: xs, e =>
    p = some a ∧
      match cell m a with
      | some c => Seg m c.next xs e
      | none => False

/-- Deciding `Seg` by walking the list. -/
def Seg.decide (m : Heap) : (p : Ptr) → (xs : List Nat) → (e : Ptr) → Decidable (Seg m p xs e)
  | p, [], e => inferInstanceAs (Decidable (p = e))
  | p, a :: xs, e =>
    match h : cell m a with
    | none => isFalse (by simp [Seg, h])
    | some c =>
      match Seg.decide m c.next xs e with
      | isTrue h1 =>
        if hp : p = some a then isTrue (by simp [Seg, h, hp, h1]) else isFalse (by simp [Seg, hp])
      | isFalse h1 => isFalse (by simp [Seg, h, h1])

instance (m : Heap) (p : Ptr) (xs : List Nat) (e : Ptr) : Decidable (Seg m p xs e) :=
  Seg.decide m p xs e

/-- The chain from `p` to `NULL` consists of the cells at `xs`. -/
abbrev Chain (m : Heap) (p : Ptr) (xs : List Nat) : Prop := Seg m p xs none

/-- The string stored at address `a` (empty when the cell is not live). -/
def valueAt (m : Heap) (a : Nat) : CStr :=
  match cell m a with
  | some c => c.value
  | none => []

/-- A valid queue: the record `q` describes the chain of the cells at `xs`,
in this order from head to tail. -/
def IsQueue (m : Heap) (q : queue_t) (xs : List Nat) : Prop :=
  Chain m q.head xs ∧ q.tail = xs.getLast? ∧ q.size = xs.length

instance (m : Heap) (q : queue_t) (xs : List Nat) : Decidable (IsQueue m q xs) :=
  inferInstanceAs (Decidable (Chain m q.head xs ∧ q.tail = xs.getLast? ∧ q.size = xs.length))

/-- Following `next` from `p` for `k` steps; `none` when the walk leaves the
live cells. -/
def follow (m : Heap) : Nat → Ptr → Option Ptr
  | 0, p => some p
  | k + 1, p =>
    match p with
    | none => none
    | some a =>
      match cell m a with
      | some c => follow m k c.next
      | none => none

/-- The queue invariant in the words of the specification. -/
def QueueInv (m : Heap) (q : queue_t) : Prop :=
  (q.size = 0 ↔ q.head = none) ∧ (q.head = none ↔ q.tail = none) ∧
    (0 < q.size →
      follow m (q.size - 1) q.head = some q.tail ∧
        ∃ t c, q.tail = some t ∧ cell m t = some c ∧ c.next = none)

/-! ## The sort on lists of addresses

The list-level counterpart of `divide_and_conquer`, used to describe the order
in which it links the cells. -/

/-- The comparison `strnatcmp(x->value, y->value) < 0` of two cells, by address. -/
def ltOf (cmp : CStr → CStr → Int) (m : Heap) (x y : Nat) : Bool :=
  decide (cmp (valueAt m x) (valueAt m y) < 0)

/-- Merge of two address lists as the merge loop performs it: the left front
goes first exactly when it compares below the right front. -/
def mergeL (lt : Nat → Nat → Bool) : List Nat → List Nat → List Nat
  | [], r => r
  | a :: l, [] => a :: l
  | a :: l, b :: r =>
    if lt a b then a :: mergeL lt l (b :: r) else b :: mergeL lt (a :: l) r
termination_by l r => l.length + r.length

/-- The order `divide_and_conquer` produces from the chain `xs`. -/
def sortL (lt : Nat → Nat → Bool) (xs : List Nat) : List Nat :=
  if h : xs.length < 2 then xs
  else
    mergeL lt (sortL lt (xs.take ((xs.length + 1) / 2)))
      (sortL lt (xs.drop ((xs.length + 1) / 2)))
termination_by xs.length
decreasing_by
  · simp only [List.length_take]; omega
  · simp only [List.length_drop]; omega

/-- State of the merge loop after the cells `acc` have been linked: `merge` is
the last of them and `head` the first. -/
def MergeInv (m : Heap) (head merge : Ptr) (acc : List Nat) : Prop :=
  (acc = [] ∧ merge = none) ∨
    ∃ init z, acc = init ++ [z] ∧ merge = some z ∧ Seg m head init (some z) ∧
      ∃ c, cell m z = some c

/-! ## Sequences of calls -/

/-- A call of the interface by a client of the queue. -/
inductive Op where
  | insertHead (s : CStr)
  | insertTail (s : CStr)
  | removeHead (sp : Option (List Nat)) (bufsize : Nat)
deriving DecidableEq, Repr

/-- What the client sees of a call: the returned flag and, after a removal, the
buffer it passed. -/
structure Ret where
  ret : Bool
  sp : Option (List Nat)
deriving DecidableEq, Repr

/-- One call, every allocation succeeding. -/
def Op.exec (op : Op) (m : Heap) (q : Option queue_t) : Res (Ret × Heap × Option queue_t) :=
  match op with
  | .insertHead s =>
    .ok ({ ret := (q_insert_head m q s true true).1, sp := none },
      (q_insert_head m q s true true).2)
  | .insertTail s => do
    let r ← q_insert_tail m q s true true
    .ok ({ ret := r.1, sp := none }, r.2)
  | .removeHead sp bufsize => do
    let r ← q_remove_head m q sp bufsize
    .ok ({ ret := r.ret, sp := r.sp }, r.heap, r.q)

/-- The calls `ops` in order; the results are listed in the same order. -/
def runOps : List Op → Heap → Option queue_t → Res (List Ret × Heap × Option queue_t)
  | [], m, q => .ok ([], m, q)
  | op :: ops, m, q => do
    let r ← op.exec m q
    let rs ← runOps ops r.2.1 r.2.2
    .ok (r.1 :: rs.1, rs.2)

/-- Whether the call is an insertion. -/
def Op.isInsert : Op → Bool
  | .insertHead _ => true
  | .insertTail _ => true
  | .removeHead _ _ => false

/-- The call passes a usable buffer, if it passes one at all. -/
def Op.wellFormed : Op → Prop
  | .insertHead _ => True
  | .insertTail _ => True
  | .removeHead sp bufsize => BufferOk sp bufsize

instance (op : Op) : Decidable op.wellFormed :=
  match op with
  | .insertHead _ => isTrue trivial
  | .insertTail _ => isTrue trivial
  | .removeHead sp bufsize => inferInstanceAs (Decidable (BufferOk sp bufsize))

/-- Number of insertions among `ops`. -/
def insertCount (ops : List Op) : Nat := ops.countP Op.isInsert

/-- Number of removals among `ops` that returned true, given the results. -/
def removeCount (ops : List Op) (rets : List Ret) : Nat :=
  (ops.zip rets).countP fun p => !p.1.isInsert && p.2.ret

/-! ## The phases of `divide_and_conquer` -/

/-- The split of `divide_and_conquer`, entered with `head` and `head->next`
non-NULL: the fast/slow walk, then `right = left->next; left->next = NULL`.
Returns the heap after the cut and `right`. -/
def split_phase (fuel : Nat) (m : Heap) (head : Ptr) : Res (Heap × Ptr) := do
  let hc ← load m head
  let left ← split_loop fuel m head hc.next
  let lc ← load m left
  let m1 ← store_next m left none
  .ok (m1, lc.next)

/-- One pass through the body of the merge loop of `divide_and_conquer`,
entered with `left` and `right` non-NULL. -/
def merge_step (cmp : CStr → CStr → Int) (s : MergeState) : Res MergeState := do
  let lc ← load s.heap s.left
  let rc ← load s.heap s.right
  if cmp lc.value rc.value < 0 then
    match s.merge with
    | none =>
      .ok { heap := s.heap, head := s.left, merge := s.left, left := lc.next,
            right := s.right }
    | some _ => do
      let m1 ← store_next s.heap s.merge s.left
      let mc ← load m1 s.merge
      let lc1 ← load m1 s.left
      .ok { heap := m1, head := s.head, merge := mc.next, left := lc1.next,
            right := s.right }
  else
    match s.merge with
    | none =>
      .ok { heap := s.heap, head := s.right, merge := s.right, left := s.left,
            right := rc.next }
    | some _ => do
      let m1 ← store_next s.heap s.merge s.right
      let mc ← load m1 s.merge
      let rc1 ← load m1 s.right
      .ok { heap := m1, head := s.head, merge := mc.next, left := s.left,
            right := rc1.next }

/-! ## The natural comparator -/

/-- Modelled from the spec: whether the byte is an ASCII digit, for the missing
`strnatcmp`. -/
def isDigit (c : Nat) : Bool := decide (48 ≤ c) && decide (c ≤ 57)

/-- Modelled from the spec: the run of consecutive digits at the front of a
string, for the missing `strnatcmp`. -/
def digitRun (s : CStr) : CStr := s.takeWhile isDigit

/-- Modelled from the spec: the numeric value of a run of digits, leading zeros
ignored, for the missing `strnatcmp`. -/
def numVal (run : CStr) : Nat := run.foldl (fun n c => 10 * n + (c - 48)) 0

/-- Modelled from the spec: the scan of `strnatcmp`, whose body (`strnatcmp.c`)
is missing. The two strings are scanned left to right. Where both current
characters are digits the full digit runs are compared by numeric value; of
two runs of equal value the more padded (longer) one sorts first; equal runs
are skipped. Otherwise the two characters are compared by byte value. A
string that ends first sorts first. The fuel bounds the number of positions
visited. -/
def strnatcmp_go : Nat → CStr → CStr → Int
  | 0, _, _ => 0
  | _ + 1, [], [] => 0
  | _ + 1, [], _ :: _ => -1
  | _ + 1, _ :: _, [] => 1
  | fuel + 1, ca :: a, cb :: b =>
    if isDigit ca && isDigit cb then
      if numVal (digitRun (ca :: a)) < numVal (digitRun (cb :: b)) then -1
      else if numVal (digitRun (cb :: b)) < numVal (digitRun (ca :: a)) then 1
      else if (digitRun (cb :: b)).length < (digitRun (ca :: a)).length then -1
      else if (digitRun (ca :: a)).length < (digitRun (cb :: b)).length then 1
      else
        strnatcmp_go fuel ((ca :: a).drop (digitRun (ca :: a)).length)
          ((cb :: b).drop (digitRun (cb :: b)).length)
    else if ca < cb then -1
    else if cb < ca then 1
    else strnatcmp_go fuel a b

/-- Modelled from the spec: the natural comparator `strnatcmp`, whose body
(`strnatcmp.c`) is missing: negative, zero or positive as the first string
sorts before, with or after the second in natural order. -/
def strnatcmp (a b : CStr) : Int := strnatcmp_go (a.length + b.length + 1) a b

/-! ## Sample data -/

/-- A comparator that orders strings by length. -/
def lenCmp (x y : CStr) : Int := (x.length : Int) - (y.length : Int)

/-- A heap with the chain 0, 1, 2, 3 and a dead cell. -/
def sampleHeap : Heap :=
  [some { value := [3], next := some 1 }, some { value := [1, 1], next := some 2 },
    some { value := [2], next := some 3 }, some { value := [], next := none }, none]

/-- The queue of the four cells of `sampleHeap`. -/
def sampleQueue : queue_t := { head := some 0, tail := some 3, size := 4 }

/-- A heap with the chain 0, 1 of two cells that hold the same string. -/
def tieHeap : Heap :=
  [some { value := [97], next := some 1 }, some { value := [97], next := none }]

/-- The queue of the two cells of `tieHeap`. -/
def tieQueue : queue_t := { head := some 0, tail := some 1, size := 2 }

/-- The cells of `tieHeap` after the split: two chains of one cell each. -/
def tieHalves : Heap :=
  [some { value := [97], next := none }, some { value := [97], next := none }]

/-- A heap with the chain 0, 1 of two cells that hold different strings of the
same length. -/
def pairHeap : Heap :=
  [some { value := [97], next := some 1 }, some { value := [98], next := none }]

/-! ## Basic facts -/

@[simp] theorem Res.ok_bind {α β : Type} (a : α) (f : α → Res β) :
    (Res.ok a >>= f) = f a := rfl

@[simp] theorem Res.fault_bind {α β : Type} (f : α → Res β) :
    ((Res.fault : Res α) >>= f) = Res.fault := rfl

@[simp] theorem Res.outOfFuel_bind {α β : Type} (f : α → Res β) :
    ((Res.outOfFuel : Res α) >>= f) = Res.outOfFuel := rfl

@[simp] theorem Res.pure_eq {α : Type} (a : α) : (pure a : Res α) = Res.ok a := rfl

theorem cell_set (m : Heap) (a b : Nat) (v : Option list_ele_t) :
    cell (m.set a v) b = if a = b then (if a < m.length then v else none) else cell m b := by
  unfold cell
  rw [List.getElem?_set]
  by_cases h : a = b
  · subst h
    by_cases h2 : a < m.length <;> simp [h2]
  · simp [h]

theorem cell_lt {m : Heap} {a : Nat} {c : list_ele_t} (h : cell m a = some c) :
    a < m.length := by
  unfold cell at h
  by_contra hn
  rw [List.getElem?_eq_none (by omega)] at h
  simp at h

theorem cell_set_self {m : Heap} {a : Nat} {c : list_ele_t} (h : cell m a = some c)
    (v : Option list_ele_t) : cell (m.set a v) a = v := by
  rw [cell_set]; simp [cell_lt h]

theorem cell_set_ne (m : Heap) {a b : Nat} (h : a ≠ b) (v : Option list_ele_t) :
    cell (m.set a v) b = cell m b := by
  rw [cell_set]; simp [h]

theorem cell_append (m : Heap) (v : Option list_ele_t) (b : Nat) :
    cell (m ++ [v]) b = if b = m.length then v else cell m b := by
  unfold cell
  by_cases h : b = m.length
  · subst h; simp
  · rcases Nat.lt_or_gt_of_ne h with h1 | h1
    · simp [h, List.getElem?_append_left h1]
    · rw [List.getElem?_eq_none (by simp; omega), List.getElem?_eq_none (by omega)]
      simp [h]

theorem load_some {m : Heap} {a : Nat} {c : list_ele_t} (h : cell m a = some c) :
    load m (some a) = .ok c := by
  simp [load, h]

theorem store_next_some {m : Heap} {a : Nat} {c : list_ele_t} (h : cell m a = some c)
    (nx : Ptr) :
    store_next m (some a) nx = .ok (m.set a (some { value := c.value, next := nx })) := by
  simp [store_next, h]

/-! ## Segments and chains -/

theorem Seg_cons {m : Heap} {p : Ptr} {a : Nat} {xs : List Nat} {e : Ptr} :
    Seg m p (a :: xs) e ↔ p = some a ∧ ∃ c, cell m a = some c ∧ Seg m c.next xs e := by
  simp only [Seg]
  cases h : cell m a <;> simp

theorem Seg_frame {m m1 : Heap} {xs : List Nat} (h : ∀ a ∈ xs, cell m1 a = cell m a) :
    ∀ {p e : Ptr}, Seg m p xs e → Seg m1 p xs e := by
  induction xs with
  | nil => intro p e hs; exact hs
  | cons a t ih =>
    intro p e hs
    rw [Seg_cons] at hs ⊢
    obtain ⟨hp, c, hc, ht⟩ := hs
    refine ⟨hp, c, ?_, ih (fun b hb => h b (List.mem_cons_of_mem _ hb)) ht⟩
    rw [h a (List.mem_cons_self _ _)]; exact hc

theorem Seg_append {m : Heap} {xs ys : List Nat} {p e : Ptr} :
    Seg m p (xs ++ ys) e ↔ ∃ r, Seg m p xs r ∧ Seg m r ys e := by
  induction xs generalizing p with
  | nil =>
    constructor
    · intro h; exact ⟨p, rfl, h⟩
    · rintro ⟨r, h1, h2⟩
      have : p = r := h1
      subst this; exact h2
  | cons a t ih =>
    rw [List.cons_append, Seg_cons]
    constructor
    · rintro ⟨hp, c, hc, ht⟩
      obtain ⟨r, h1, h2⟩ := ih.mp ht
      exact ⟨r, Seg_cons.mpr ⟨hp, c, hc, h1⟩, h2⟩
    · rintro ⟨r, h1, h2⟩
      obtain ⟨hp, c, hc, ht⟩ := Seg_cons.mp h1
      exact ⟨hp, c, hc, ih.mpr ⟨r, ht, h2⟩⟩

theorem Seg_snoc {m : Heap} {xs : List Nat} {a : Nat} {p e : Ptr} :
    Seg m p (xs ++ [a]) e ↔ Seg m p xs (some a) ∧ ∃ c, cell m a = some c ∧ c.next = e := by
  rw [Seg_append]
  constructor
  · rintro ⟨r, h1, h2⟩
    obtain ⟨hr, c, hc, he⟩ := Seg_cons.mp h2
    subst hr
    exact ⟨h1, c, hc, he⟩
  · rintro ⟨h1, c, hc, he⟩
    exact ⟨some a, h1, Seg_cons.mpr ⟨rfl, c, hc, he⟩⟩

theorem Seg_live {m : Heap} {xs : List Nat} {p e : Ptr} (h : Seg m p xs e) {a : Nat}
    (ha : a ∈ xs) : ∃ c, cell m a = some c := by
  induction xs generalizing p with
  | nil => cases ha
  | cons b t ih =>
    obtain ⟨_, c, hc, ht⟩ := Seg_cons.mp h
    rcases List.mem_cons.mp ha with rfl | hmem
    · exact ⟨c, hc⟩
    · exact ih ht hmem

theorem Chain_unique {m : Heap} {xs ys : List Nat} {p : Ptr} (h1 : Chain m p xs)
    (h2 : Chain m p ys) : xs = ys := by
  induction xs generalizing p ys with
  | nil =>
    have hp : p = none := h1
    cases ys with
    | nil => rfl
    | cons b t =>
      obtain ⟨hb, _⟩ := Seg_cons.mp h2
      rw [hp] at hb; cases hb
  | cons a t ih =>
    obtain ⟨hp, c, hc, ht⟩ := Seg_cons.mp h1
    cases ys with
    | nil =>
      have : p = none := h2
      rw [hp] at this; cases this
    | cons b u =>
      obtain ⟨hb, d, hd, hu⟩ := Seg_cons.mp h2
      rw [hp] at hb
      cases hb
      rw [hc] at hd
      cases hd
      rw [ih ht hu]

theorem Chain_nodup {m : Heap} {xs : List Nat} {p : Ptr} (h : Chain m p xs) : xs.Nodup := by
  induction xs generalizing p with
  | nil => exact List.nodup_nil
  | cons a t ih =>
    obtain ⟨_, c, hc, ht⟩ := Seg_cons.mp h
    refine List.nodup_cons.mpr ⟨?_, ih ht⟩
    intro ha
    obtain ⟨u, v, huv⟩ := List.append_of_mem ha
    have ht2 := ht
    rw [huv, Seg_append] at ht2
    obtain ⟨r, _, hr⟩ := ht2
    obtain ⟨_, d, hd, hv⟩ := Seg_cons.mp hr
    rw [hc] at hd
    cases hd
    have := Chain_unique ht hv
    have hl := congrArg List.length this
    rw [huv] at hl
    simp at hl
    omega

theorem Chain_head {m : Heap} {xs : List Nat} {p : Ptr} (h : Chain m p xs) :
    p = xs.head? := by
  cases xs with
  | nil => exact h
  | cons a t => exact (Seg_cons.mp h).1

theorem valueAt_set_next {m : Heap} {a : Nat} {c : list_ele_t} (h : cell m a = some c)
    (nx : Ptr) (b : Nat) :
    valueAt (m.set a (some { value := c.value, next := nx })) b = valueAt m b := by
  unfold valueAt
  by_cases hab : a = b
  · subst hab
    rw [cell_set_self h, h]
  · rw [cell_set_ne m hab]

theorem cell_set_of_not_mem (m : Heap) {a : Nat} {xs : List Nat} (h : a ∉ xs)
    (v : Option list_ele_t) : ∀ b ∈ xs, cell (m.set a v) b = cell m b := by
  intro b hb
  apply cell_set_ne
  rintro rfl
  exact h hb

theorem Seg_set {m : Heap} {a : Nat} {xs : List Nat} (h : a ∉ xs) (v : Option list_ele_t)
    {p e : Ptr} (hs : Seg m p xs e) : Seg (m.set a v) p xs e :=
  Seg_frame (cell_set_of_not_mem m h v) hs

/-! ## `q_reverse` -/

theorem foldl_last (prev : Ptr) (xs : List Nat) (h : xs ≠ []) :
    List.foldl (fun _ a => some a) prev xs = xs.getLast? := by
  induction xs generalizing prev with
  | nil => exact absurd rfl h
  | cons a t ih =>
    cases t with
    | nil => rfl
    | cons b u =>
      rw [List.foldl_cons, ih (some a) (List.cons_ne_nil _ _), List.getLast?_cons_cons]

theorem reverse_loop_spec {xs : List Nat} :
    ∀ (m : Heap) (prev cur : Ptr) (fuel : Nat), Chain m cur xs → xs.length < fuel →
      ∃ m1, reverse_loop fuel m prev cur = .ok m1 ∧ m1.length = m.length ∧
        (∀ b, b ∉ xs → cell m1 b = cell m b) ∧
        (∀ b, valueAt m1 b = valueAt m b) ∧
        (∀ ys e, Seg m prev ys e → (∀ b ∈ ys, b ∉ xs) →
          Seg m1 (List.foldl (fun _ a => some a) prev xs) (xs.reverse ++ ys) e) := by
  induction xs with
  | nil =>
    intro m prev cur fuel hc hf
    have hcur : cur = none := hc
    subst hcur
    obtain ⟨f, rfl⟩ : ∃ f, fuel = f + 1 := ⟨fuel - 1, by simp at hf; omega⟩
    exact ⟨m, rfl, rfl, fun _ _ => rfl, fun _ => rfl, fun ys e hs _ => hs⟩
  | cons a t ih =>
    intro m prev cur fuel hc hf
    have hnd := Chain_nodup hc
    obtain ⟨hcur, c, hca, ht⟩ := Seg_cons.mp hc
    subst hcur
    obtain ⟨f, rfl⟩ : ∃ f, fuel = f + 1 := ⟨fuel - 1, by simp at hf; omega⟩
    have hat : a ∉ t := (List.nodup_cons.mp hnd).1
    have ht1 : Chain (m.set a (some { value := c.value, next := prev })) c.next t :=
      Seg_set hat _ ht
    obtain ⟨m2, hrun, hlen, hout, hval, hseg⟩ :=
      ih _ (some a) c.next f ht1 (by simp at hf; omega)
    refine ⟨m2, ?_, ?_, ?_, ?_, ?_⟩
    · simp only [reverse_loop, load_some hca, store_next_some hca, Res.ok_bind]
      exact hrun
    · rw [hlen, List.length_set]
    · intro b hb
      rw [List.mem_cons, not_or] at hb
      rw [hout b hb.2, cell_set_ne m (fun h => hb.1 h.symm)]
    · intro b
      rw [hval b, valueAt_set_next hca]
    · intro ys e hs hdis
      have hay : a ∉ ys := fun h => hdis a h (List.mem_cons_self _ _)
      have h1 : Seg (m.set a (some { value := c.value, next := prev })) (some a) (a :: ys) e := by
        refine Seg_cons.mpr ⟨rfl, _, cell_set_self hca _, ?_⟩
        exact Seg_set hay _ hs
      have h2 := hseg (a :: ys) e h1 (by
        intro b hb
        rcases List.mem_cons.mp hb with rfl | hb
        · exact hat
        · exact fun h => hdis b hb (List.mem_cons_of_mem _ h))
      rw [List.reverse_cons, List.append_assoc]
      exact h2

theorem q_reverse_spec {m : Heap} {q : queue_t} {xs : List Nat} (hq : IsQueue m q xs)
    {fuel : Nat} (hf : xs.length < fuel) :
    ∃ m1, q_reverse fuel m (some q) =
        .ok (m1, some { head := q.tail, tail := q.head, size := q.size }) ∧
      IsQueue m1 { head := q.tail, tail := q.head, size := q.size } xs.reverse ∧
      m1.length = m.length ∧ (∀ b, b ∉ xs → cell m1 b = cell m b) ∧
      (∀ b, valueAt m1 b = valueAt m b) := by
  obtain ⟨hc, htail, hsize⟩ := hq
  by_cases hx : xs = []
  · subst hx
    have hh : q.head = none := hc
    have ht : q.tail = none := htail
    have hs : q.size = 0 := hsize
    refine ⟨m, ?_, ⟨?_, ?_, ?_⟩, rfl, fun _ _ => rfl, fun _ => rfl⟩
    · simp only [q_reverse, hs, if_true, hh, ht]
      cases q; simp_all
    · exact ht
    · exact hh
    · exact hs
  · obtain ⟨m1, hrun, hlen, hout, hval, hseg⟩ := reverse_loop_spec m none q.head fuel hc hf
    have hs0 : q.size ≠ 0 := by
      rw [hsize]; exact fun h => hx (List.length_eq_zero.mp h)
    refine ⟨m1, ?_, ⟨?_, ?_, ?_⟩, hlen, hout, hval⟩
    · simp only [q_reverse, hs0, if_false, hrun, Res.ok_bind]
    · have := hseg [] none rfl (fun _ hb => by cases hb)
      rw [foldl_last none xs hx, List.append_nil] at this
      show Seg m1 q.tail xs.reverse none
      rw [htail]; exact this
    · show q.head = xs.reverse.getLast?
      rw [List.getLast?_reverse]; exact Chain_head hc
    · show q.size = xs.reverse.length
      rw [List.length_reverse]; exact hsize

/-! ## Insertion and removal -/

theorem Seg_lt {m : Heap} {xs : List Nat} {p e : Ptr} (h : Seg m p xs e) {a : Nat}
    (ha : a ∈ xs) : a < m.length := by
  obtain ⟨c, hc⟩ := Seg_live h ha
  exact cell_lt hc

theorem Seg_push {m : Heap} {xs : List Nat} {p e : Ptr} (h : Seg m p xs e)
    (v : Option list_ele_t) : Seg (m ++ [v]) p xs e := by
  refine Seg_frame (fun b hb => ?_) h
  rw [cell_append, if_neg (Nat.ne_of_lt (Seg_lt h hb))]

theorem valueAt_push_old (m : Heap) (v : Option list_ele_t) {b : Nat} (hb : b ≠ m.length) :
    valueAt (m ++ [v]) b = valueAt m b := by
  unfold valueAt
  rw [cell_append, if_neg hb]

theorem q_insert_head_spec {m : Heap} {q : queue_t} {xs : List Nat} (hq : IsQueue m q xs)
    (s : CStr) :
    ∃ q1, q_insert_head m (some q) s true true =
        (true, m ++ [some { value := s, next := q.head }], some q1) ∧
      IsQueue (m ++ [some { value := s, next := q.head }]) q1 (m.length :: xs) ∧
      q1.head = some m.length ∧ (xs ≠ [] → q1.tail = q.tail) ∧ q1.size = q.size + 1 := by
  obtain ⟨hc, htail, hsize⟩ := hq
  have hcell : cell (m ++ [some { value := s, next := q.head }]) m.length =
      some { value := s, next := q.head } := by
    rw [cell_append, if_pos rfl]
  have hch : Chain (m ++ [some { value := s, next := q.head }]) (some m.length)
      (m.length :: xs) :=
    Seg_cons.mpr ⟨rfl, _, hcell, Seg_push hc _⟩
  by_cases hx : xs = []
  · subst hx
    have hs : q.size = 0 := hsize
    refine ⟨{ head := some m.length, tail := some m.length, size := q.size + 1 }, ?_,
      ⟨hch, rfl, ?_⟩, rfl, fun h => absurd rfl h, rfl⟩
    · simp [q_insert_head, hs]
    · simp [hs]
  · have hs0 : q.size ≠ 0 := by
      rw [hsize]; exact fun h => hx (List.length_eq_zero.mp h)
    refine ⟨{ head := some m.length, tail := q.tail, size := q.size + 1 }, ?_,
      ⟨hch, ?_, ?_⟩, rfl, fun _ => rfl, rfl⟩
    · simp [q_insert_head, hs0]
    · show q.tail = (m.length :: xs).getLast?
      rw [htail]
      cases xs with
      | nil => exact absurd rfl hx
      | cons b u => rw [List.getLast?_cons_cons]
    · show q.size + 1 = (m.length :: xs).length
      rw [hsize]; rfl

theorem q_insert_tail_spec {m : Heap} {q : queue_t} {xs : List Nat} (hq : IsQueue m q xs)
    (s : CStr) :
    ∃ m1 q1, q_insert_tail m (some q) s true true = .ok (true, m1, some q1) ∧
      IsQueue m1 q1 (xs ++ [m.length]) ∧ m1.length = m.length + 1 ∧
      valueAt m1 m.length = s ∧ (∀ b, b ≠ m.length → valueAt m1 b = valueAt m b) ∧
      (xs ≠ [] → q1.head = q.head) ∧ q1.tail = some m.length ∧ q1.size = q.size + 1 := by
  obtain ⟨hc, htail, hsize⟩ := hq
  have hcell : cell (m ++ [some { value := s, next := none }]) m.length =
      some { value := s, next := none } := by
    rw [cell_append, if_pos rfl]
  rcases List.eq_nil_or_concat' xs with hx | ⟨init, t, hx⟩
  · subst hx
    have hs : q.size = 0 := hsize
    refine ⟨m ++ [some { value := s, next := none }],
      { head := some m.length, tail := some m.length, size := q.size + 1 }, ?_,
      ⟨?_, rfl, ?_⟩, by simp, ?_, ?_, fun h => absurd rfl h, rfl, rfl⟩
    · simp [q_insert_tail, hs]
    · exact Seg_cons.mpr ⟨rfl, _, hcell, rfl⟩
    · simp [hs]
    · simp [valueAt, hcell]
    · intro b hb; exact valueAt_push_old m _ hb
  · subst hx
    have hs0 : q.size ≠ 0 := by rw [hsize]; simp
    have htl : q.tail = some t := by rw [htail]; simp
    have hnd := Chain_nodup hc
    have htinit : t ∉ init := by
      intro h
      have := List.disjoint_of_nodup_append hnd h (List.mem_singleton_self t)
      exact this
    obtain ⟨hseg, c, hct, hcn⟩ := Seg_snoc.mp hc
    have htlt : t < m.length := cell_lt hct
    have hct1 : cell (m ++ [some { value := s, next := none }]) t = some c := by
      rw [cell_append, if_neg (Nat.ne_of_lt htlt)]; exact hct
    refine ⟨(m ++ [some (list_ele_t.mk s none)]).set t
        (some (list_ele_t.mk c.value (some m.length))),
      { head := q.head, tail := some m.length, size := q.size + 1 }, ?_,
      ⟨?_, ?_, ?_⟩, by simp, ?_, ?_, fun _ => rfl, rfl, rfl⟩
    · simp [q_insert_tail, hs0, htl, store_next_some hct1]
    · show Seg _ q.head (init ++ [t] ++ [m.length]) none
      refine Seg_snoc.mpr ⟨Seg_snoc.mpr ⟨Seg_set htinit _ (Seg_push hseg _), _,
        cell_set_self hct1 _, rfl⟩, list_ele_t.mk s none, ?_, rfl⟩
      rw [cell_set_ne _ (Nat.ne_of_lt htlt)]; exact hcell
    · simp
    · simp [hsize]
    · rw [valueAt_set_next hct1]; simp [valueAt, hcell]
    · intro b hb
      rw [valueAt_set_next hct1]; exact valueAt_push_old m _ hb

theorem q_remove_head_spec {m : Heap} {q : queue_t} {a : Nat} {t : List Nat}
    (hq : IsQueue m q (a :: t)) (sp : Option (List Nat)) (bufsize : Nat) :
    ∃ r q1, q_remove_head m (some q) sp bufsize = .ok r ∧ r.ret = true ∧
      r.heap = free m a ∧ r.q = some q1 ∧ IsQueue (free m a) q1 t ∧
      q1.head = t.head? ∧ (t ≠ [] → q1.tail = q.tail) ∧ q1.size = q.size - 1 ∧
      r.writes =
        (match sp with
         | none => []
         | some _ =>
           strncpy (valueAt m a) ((bufsize + SIZE_MOD - 1) % SIZE_MOD)
             ++ [((bufsize + SIZE_MOD - 1) % SIZE_MOD, 0)]) ∧
      r.sp = sp.map (fun b => applyWrites b r.writes) ∧
      (∀ b, b ≠ a → cell (free m a) b = cell m b) := by
  obtain ⟨hc, htail, hsize⟩ := hq
  have hnd := Chain_nodup hc
  obtain ⟨hh, c, hca, hct⟩ := Seg_cons.mp hc
  have hat : a ∉ t := (List.nodup_cons.mp hnd).1
  have hs0 : q.size ≠ 0 := by rw [hsize]; simp
  have hval : valueAt m a = c.value := by simp [valueAt, hca]
  have hct1 : Chain (free m a) c.next t := Seg_set hat _ hct
  refine ⟨Removed.mk true (free m a)
      (some (queue_t.mk c.next (if q.size - 1 = 0 then c.next else q.tail) (q.size - 1)))
      (match sp with
       | none => []
       | some _ =>
         strncpy c.value ((bufsize + SIZE_MOD - 1) % SIZE_MOD)
           ++ [((bufsize + SIZE_MOD - 1) % SIZE_MOD, 0)])
      (sp.map fun b => applyWrites b
        (match sp with
         | none => []
         | some _ =>
           strncpy c.value ((bufsize + SIZE_MOD - 1) % SIZE_MOD)
             ++ [((bufsize + SIZE_MOD - 1) % SIZE_MOD, 0)])),
    queue_t.mk c.next (if q.size - 1 = 0 then c.next else q.tail) (q.size - 1),
    ?_, rfl, rfl, rfl, ⟨hct1, ?_, ?_⟩, Chain_head hct, ?_, rfl, ?_, rfl, ?_⟩
  · simp only [q_remove_head, hs0, if_false, hh, load_some hca, Res.ok_bind]
  · show (if q.size - 1 = 0 then c.next else q.tail) = t.getLast?
    rw [hsize, htail]
    cases t with
    | nil => simpa using Chain_head hct
    | cons b u => simp [List.getLast?_cons_cons]
  · show q.size - 1 = t.length
    rw [hsize]; simp
  · intro ht
    have : q.size - 1 ≠ 0 := by
      rw [hsize]; simp; exact ht
    show (if q.size - 1 = 0 then c.next else q.tail) = q.tail
    rw [if_neg this]
  · rw [hval]
  · intro b hb
    exact cell_set_ne m (fun h => hb h.symm) _

/-! ## The list-level sort -/

theorem mergeL_nil_left (lt : Nat → Nat → Bool) (r : List Nat) : mergeL lt [] r = r := by
  rw [mergeL]

theorem mergeL_nil_right (lt : Nat → Nat → Bool) (l : List Nat) : mergeL lt l [] = l := by
  cases l with
  | nil => rw [mergeL]
  | cons a l => rw [mergeL]

theorem mergeL_cons (lt : Nat → Nat → Bool) (a b : Nat) (l r : List Nat) :
    mergeL lt (a :: l) (b :: r) =
      if lt a b then a :: mergeL lt l (b :: r) else b :: mergeL lt (a :: l) r := by
  rw [mergeL]

theorem mergeL_perm (lt : Nat → Nat → Bool) :
    ∀ (n : Nat) (l r : List Nat), l.length + r.length = n → (mergeL lt l r).Perm (l ++ r) := by
  intro n
  induction n with
  | zero =>
    intro l r h
    have hl : l = [] := List.length_eq_zero.mp (by omega)
    subst hl
    rw [mergeL_nil_left]; rfl
  | succ n ih =>
    intro l r h
    cases l with
    | nil => rw [mergeL_nil_left]; rfl
    | cons a l =>
      cases r with
      | nil => rw [mergeL_nil_right, List.append_nil]
      | cons b r =>
        rw [mergeL_cons]
        split
        · exact (ih l (b :: r) (by simp at h ⊢; omega)).cons a
        · have h1 := (ih (a :: l) r (by simp at h ⊢; omega)).cons b
          exact h1.trans (List.perm_middle.symm)

theorem sortL_small (lt : Nat → Nat → Bool) {xs : List Nat} (h : xs.length < 2) :
    sortL lt xs = xs := by
  rw [sortL, dif_pos h]

theorem sortL_big (lt : Nat → Nat → Bool) {xs : List Nat} (h : ¬ xs.length < 2) :
    sortL lt xs =
      mergeL lt (sortL lt (xs.take ((xs.length + 1) / 2)))
        (sortL lt (xs.drop ((xs.length + 1) / 2))) := by
  rw [sortL, dif_neg h]

theorem sortL_perm (lt : Nat → Nat → Bool) :
    ∀ (n : Nat) (xs : List Nat), xs.length ≤ n → (sortL lt xs).Perm xs := by
  intro n
  induction n with
  | zero =>
    intro xs h
    rw [sortL_small lt (by omega)]
  | succ n ih =>
    intro xs h
    by_cases h2 : xs.length < 2
    · rw [sortL_small lt h2]
    · rw [sortL_big lt h2]
      have hl := ih (xs.take ((xs.length + 1) / 2)) (by simp only [List.length_take]; omega)
      have hr := ih (xs.drop ((xs.length + 1) / 2)) (by simp only [List.length_drop]; omega)
      refine (mergeL_perm lt _ _ _ rfl).trans ?_
      refine (List.Perm.append hl hr).trans ?_
      rw [List.take_append_drop]

/-! ## The loops of the sort -/

theorem split_loop_spec :
    ∀ (fuel : Nat) (m : Heap) (ls rs : List Nat) (left right : Ptr), Chain m left ls →
      Chain m right rs → rs.length / 2 < ls.length → rs.length / 2 < fuel →
      ∃ p, split_loop fuel m left right = .ok p ∧ Chain m p (ls.drop (rs.length / 2)) := by
  intro fuel
  induction fuel with
  | zero => intro m ls rs left right _ _ _ hf; omega
  | succ f ih =>
    intro m ls rs left right hl hr hlen hf
    cases rs with
    | nil =>
      have : right = none := hr
      subst this
      exact ⟨left, rfl, hl⟩
    | cons b rs =>
      obtain ⟨hb, rc, hrc, hrs⟩ := Seg_cons.mp hr
      subst hb
      cases rs with
      | nil =>
        have hn : rc.next = none := hrs
        refine ⟨left, ?_, by simpa using hl⟩
        simp only [split_loop, load_some hrc, Res.ok_bind, hn]
      | cons b2 r =>
        obtain ⟨hb2, rn, hrn, hr2⟩ := Seg_cons.mp hrs
        have hk : (b :: b2 :: r).length / 2 = r.length / 2 + 1 := by
          simp only [List.length_cons]; omega
        rw [hk] at hlen hf ⊢
        cases ls with
        | nil => simp at hlen
        | cons a l =>
          obtain ⟨ha, lc, hlc, hl2⟩ := Seg_cons.mp hl
          subst ha
          obtain ⟨p, hrun, hp⟩ := ih m l r lc.next rn.next hl2 hr2
            (by simp only [List.length_cons] at hlen; omega) (by omega)
          refine ⟨p, ?_, ?_⟩
          · simp only [split_loop, load_some hrc, Res.ok_bind, hb2, load_some hlc,
              load_some hrn]
            exact hrun
          · rw [List.drop_succ_cons]; exact hp

theorem tail_loop_spec :
    ∀ (fuel : Nat) (m : Heap) (ys : List Nat) (p : Ptr), Chain m p ys → ys ≠ [] →
      ys.length ≤ fuel → tail_loop fuel m p = .ok ys.getLast? := by
  intro fuel
  induction fuel with
  | zero =>
    intro m ys p _ hne hf
    exact absurd (List.length_eq_zero.mp (by omega)) hne
  | succ f ih =>
    intro m ys p hc hne hf
    cases ys with
    | nil => exact absurd rfl hne
    | cons a t =>
      obtain ⟨ha, c, hca, ht⟩ := Seg_cons.mp hc
      subst ha
      cases t with
      | nil =>
        have hn : c.next = none := ht
        simp only [tail_loop, load_some hca, Res.ok_bind, hn]
        rfl
      | cons b u =>
        have hb := (Seg_cons.mp ht).1
        have := ih m (b :: u) c.next ht (List.cons_ne_nil _ _)
          (by simp only [List.length_cons] at hf ⊢; omega)
        simp only [tail_loop, load_some hca, Res.ok_bind, hb]
        rw [hb] at this
        rw [this, List.getLast?_cons_cons]

theorem remainder_some (a : Nat) (r : Ptr) : remainder (some a) r = some a := rfl

theorem remainder_none (r : Ptr) : remainder none r = r := by
  cases r <;> rfl

theorem merge_finish {m : Heap} {head merge p : Ptr} {acc rest : List Nat}
    (hinv : MergeInv m head merge acc) (hne : acc ≠ []) (hnd : acc.Nodup)
    (hrest : Chain m p rest) (hdis : ∀ b ∈ acc, b ∉ rest) :
    ∃ m4, store_next m merge p = .ok m4 ∧ Chain m4 head (acc ++ rest) ∧
      m4.length = m.length ∧ (∀ b, b ∉ acc → cell m4 b = cell m b) ∧
      (∀ b, valueAt m4 b = valueAt m b) := by
  rcases hinv with ⟨h, _⟩ | ⟨init, z, hacc, hm, hseg, c, hc⟩
  · exact absurd h hne
  · subst hacc hm
    have hzi : z ∉ init := fun h =>
      List.disjoint_of_nodup_append hnd h (List.mem_singleton_self z)
    have hzr : z ∉ rest := hdis z (by simp)
    refine ⟨m.set z (some (list_ele_t.mk c.value p)), store_next_some hc p, ?_, by simp, ?_,
      fun b => valueAt_set_next hc p b⟩
    · exact Seg_append.mpr ⟨p, Seg_snoc.mpr ⟨Seg_set hzi _ hseg, _, cell_set_self hc _, rfl⟩,
        Seg_set hzr _ hrest⟩
    · intro b hb
      apply cell_set_ne
      rintro rfl
      exact hb (by simp)

theorem link_spec {m : Heap} {head merge : Ptr} {acc : List Nat} {x : Nat} {cx : list_ele_t}
    (hinv : MergeInv m head merge acc) (hnd : acc.Nodup) (hx : cell m x = some cx)
    (hxa : x ∉ acc) :
    (merge = none ∧ acc = [] ∧ MergeInv m (some x) (some x) [x]) ∨
      ∃ z m1 mc, merge = some z ∧ z ∈ acc ∧ store_next m (some z) (some x) = .ok m1 ∧
        load m1 (some z) = .ok mc ∧ mc.next = some x ∧ cell m1 x = some cx ∧
        MergeInv m1 head (some x) (acc ++ [x]) ∧ m1.length = m.length ∧
        (∀ b, b ≠ z → cell m1 b = cell m b) ∧ (∀ b, valueAt m1 b = valueAt m b) := by
  rcases hinv with ⟨h, hm⟩ | ⟨init, z, hacc, hm, hseg, c, hc⟩
  · exact Or.inl ⟨hm, h, Or.inr ⟨[], x, rfl, rfl, rfl, cx, hx⟩⟩
  · subst hacc hm
    have hzi : z ∉ init := fun h =>
      List.disjoint_of_nodup_append hnd h (List.mem_singleton_self z)
    have hzx : z ≠ x := by
      rintro rfl
      exact hxa (by simp)
    have hx1 : cell (m.set z (some (list_ele_t.mk c.value (some x)))) x = some cx := by
      rw [cell_set_ne m hzx]; exact hx
    refine Or.inr ⟨z, m.set z (some (list_ele_t.mk c.value (some x))),
      list_ele_t.mk c.value (some x), rfl, by simp, store_next_some hc _,
      load_some (cell_set_self hc _), rfl, hx1, ?_, by simp, ?_,
      fun b => valueAt_set_next hc _ b⟩
    · exact Or.inr ⟨init ++ [z], x, rfl, rfl,
        Seg_snoc.mpr ⟨Seg_set hzi _ hseg, _, cell_set_self hc _, rfl⟩, cx, hx1⟩
    · intro b hb
      exact cell_set_ne m (fun h => hb h.symm) _

theorem ltOf_congr (cmp : CStr → CStr → Int) {m m1 : Heap}
    (h : ∀ b, valueAt m1 b = valueAt m b) (x y : Nat) : ltOf cmp m1 x y = ltOf cmp m x y := by
  unfold ltOf
  rw [h x, h y]

theorem merge_loop_spec (cmp : CStr → CStr → Int) (lt : Nat → Nat → Bool) :
    ∀ (fuel : Nat) (m : Heap) (head merge left right : Ptr) (acc ls rs : List Nat),
      (∀ x y, lt x y = ltOf cmp m x y) → Chain m left ls → Chain m right rs →
      MergeInv m head merge acc → acc.Nodup → (∀ b ∈ acc, b ∉ ls ∧ b ∉ rs) →
      (∀ b ∈ ls, b ∉ rs) → (acc ≠ [] ∨ (ls ≠ [] ∧ rs ≠ [])) →
      ls.length + rs.length ≤ fuel → 0 < fuel →
      ∃ s1 m4,
        merge_loop cmp fuel
            { heap := m, head := head, merge := merge, left := left, right := right } =
          .ok s1 ∧
        store_next s1.heap s1.merge (remainder s1.left s1.right) = .ok m4 ∧
        Chain m4 s1.head (acc ++ mergeL lt ls rs) ∧ m4.length = m.length ∧
        (∀ b, b ∉ acc → b ∉ ls → b ∉ rs → cell m4 b = cell m b) ∧
        (∀ b, valueAt m4 b = valueAt m b) := by
  intro fuel
  induction fuel with
  | zero => intro m head merge left right acc ls rs _ _ _ _ _ _ _ _ _ h0; omega
  | succ f ih =>
    intro m head merge left right acc ls rs hlt hl hr hinv hnd hdis hlr hne hfuel _
    cases ls with
    | nil =>
      have hleft : left = none := hl
      subst hleft
      have hacc : acc ≠ [] := by
        rcases hne with h | ⟨h, _⟩
        · exact h
        · exact absurd rfl h
      obtain ⟨m4, hst, hch, hlen, hfr, hval⟩ :=
        merge_finish hinv hacc hnd hr (fun b hb => (hdis b hb).2)
      refine ⟨MergeState.mk m head merge none right, m4, by simp only [merge_loop], ?_, ?_,
        hlen, fun b h1 _ h3 => hfr b h1, hval⟩
      · simp only [remainder_none]; exact hst
      · rw [mergeL_nil_left]; exact hch
    | cons a l =>
      obtain ⟨ha, la, hla, hl2⟩ := Seg_cons.mp hl
      subst ha
      have hal : a ∉ l := (List.nodup_cons.mp (Chain_nodup hl)).1
      cases rs with
      | nil =>
        have hright : right = none := hr
        subst hright
        have hacc : acc ≠ [] := by
          rcases hne with h | ⟨_, h⟩
          · exact h
          · exact absurd rfl h
        obtain ⟨m4, hst, hch, hlen, hfr, hval⟩ :=
          merge_finish hinv hacc hnd hl (fun b hb => (hdis b hb).1)
        refine ⟨MergeState.mk m head merge (some a) none, m4, by simp only [merge_loop], ?_,
          ?_, hlen, fun b h1 _ _ => hfr b h1, hval⟩
        · simp only [remainder_some]; exact hst
        · rw [mergeL_nil_right]; exact hch
      | cons b r =>
        obtain ⟨hb, rb, hrb, hr2⟩ := Seg_cons.mp hr
        subst hb
        have hbr : b ∉ r := (List.nodup_cons.mp (Chain_nodup hr)).1
        have hva : valueAt m a = la.value := by simp [valueAt, hla]
        have hvb : valueAt m b = rb.value := by simp [valueAt, hrb]
        have hf1 : l.length + (b :: r).length ≤ f := by
          simp only [List.length_cons] at hfuel ⊢; omega
        have hf2 : (a :: l).length + r.length ≤ f := by
          simp only [List.length_cons] at hfuel ⊢; omega
        have hf0 : 0 < f := by
          simp only [List.length_cons] at hf1; omega
        by_cases hc : cmp la.value rb.value < 0
        · have hltab : lt a b = true := by
            rw [hlt, ltOf, hva, hvb]; exact decide_eq_true hc
          have haacc : a ∉ acc := fun h => (hdis a h).1 (List.mem_cons_self _ _)
          rcases link_spec hinv hnd hla haacc with
            ⟨hm, hacc, hinv1⟩ | ⟨z, m1, mc, hm, hz, hst, hld, hmc, hla1, hinv1, hlen1, hfr1, hval1⟩
          · subst hm hacc
            obtain ⟨s1, m4, hrun, hst4, hch, hlen, hfr, hval⟩ :=
              ih m (some a) (some a) la.next (some b) [a] l (b :: r) hlt hl2 hr hinv1
                (List.nodup_singleton a)
                (by
                  intro x hx
                  rw [List.mem_singleton] at hx
                  subst hx
                  exact ⟨hal, hlr x (List.mem_cons_self _ _)⟩)
                (fun x hx => hlr x (List.mem_cons_of_mem _ hx))
                (Or.inl (List.cons_ne_nil _ _)) hf1 hf0
            refine ⟨s1, m4, ?_, hst4, ?_, hlen, ?_, hval⟩
            · simp only [merge_loop, load_some hla, load_some hrb, Res.ok_bind, if_pos hc]
              exact hrun
            · rw [mergeL_cons, if_pos hltab]; exact hch
            · intro x _ h2 h3
              rw [List.mem_cons, not_or] at h2
              exact hfr x (by simpa using h2.1) h2.2 h3
          · subst hm
            have hzl : z ∉ a :: l := (hdis z hz).1
            have hzr : z ∉ b :: r := (hdis z hz).2
            have hl1 : Chain m1 la.next l :=
              Seg_frame (fun x hx => hfr1 x (fun h => hzl (h ▸ List.mem_cons_of_mem _ hx))) hl2
            have hr1 : Chain m1 (some b) (b :: r) :=
              Seg_frame (fun x hx => hfr1 x (fun h => hzr (h ▸ hx))) hr
            obtain ⟨s1, m4, hrun, hst4, hch, hlen, hfr, hval⟩ :=
              ih m1 head (some a) la.next (some b) (acc ++ [a]) l (b :: r)
                (fun x y => by rw [hlt, ltOf_congr cmp hval1]) hl1 hr1 hinv1
                (List.nodup_append.mpr ⟨hnd, List.nodup_singleton a, by
                  intro x hx hx2
                  rw [List.mem_singleton] at hx2
                  subst hx2
                  exact haacc hx⟩)
                (by
                  intro x hx
                  rcases List.mem_append.mp hx with hx | hx
                  · exact ⟨fun h => (hdis x hx).1 (List.mem_cons_of_mem _ h), (hdis x hx).2⟩
                  · rw [List.mem_singleton] at hx
                    subst hx
                    exact ⟨hal, hlr x (List.mem_cons_self _ _)⟩)
                (fun x hx => hlr x (List.mem_cons_of_mem _ hx))
                (Or.inl (by simp)) hf1 hf0
            refine ⟨s1, m4, ?_, hst4, ?_, by rw [hlen, hlen1], ?_, fun x => by
              rw [hval x, hval1 x]⟩
            · simp only [merge_loop, load_some hla, load_some hrb, Res.ok_bind, if_pos hc,
                hst, hld, load_some hla1, hmc]
              exact hrun
            · rw [mergeL_cons, if_pos hltab]
              simpa using hch
            · intro x h1 h2 h3
              rw [List.mem_cons, not_or] at h2
              rw [hfr x (by simp [h1, h2.1]) h2.2 h3, hfr1 x (fun h => h1 (h ▸ hz))]
        · have hltab : lt a b = false := by
            rw [hlt, ltOf, hva, hvb]; exact decide_eq_false hc
          have hbacc : b ∉ acc := fun h => (hdis b h).2 (List.mem_cons_self _ _)
          have hbl : b ∉ a :: l := fun h => hlr b h (List.mem_cons_self _ _)
          rcases link_spec hinv hnd hrb hbacc with
            ⟨hm, hacc, hinv1⟩ | ⟨z, m1, mc, hm, hz, hst, hld, hmc, hrb1, hinv1, hlen1, hfr1, hval1⟩
          · subst hm hacc
            obtain ⟨s1, m4, hrun, hst4, hch, hlen, hfr, hval⟩ :=
              ih m (some b) (some b) (some a) rb.next [b] (a :: l) r hlt hl hr2 hinv1
                (List.nodup_singleton b)
                (by
                  intro x hx
                  rw [List.mem_singleton] at hx
                  subst hx
                  exact ⟨hbl, hbr⟩)
                (fun x hx h => hlr x hx (List.mem_cons_of_mem _ h))
                (Or.inl (List.cons_ne_nil _ _)) hf2 hf0
            refine ⟨s1, m4, ?_, hst4, ?_, hlen, ?_, hval⟩
            · simp only [merge_loop, load_some hla, load_some hrb, Res.ok_bind, if_neg hc]
              exact hrun
            · rw [mergeL_cons, hltab]; exact hch
            · intro x _ h2 h3
              rw [List.mem_cons, not_or] at h3
              exact hfr x (by simpa using h3.1) h2 h3.2
          · subst hm
            have hzl : z ∉ a :: l := (hdis z hz).1
            have hzr : z ∉ b :: r := (hdis z hz).2
            have hl1 : Chain m1 (some a) (a :: l) :=
              Seg_frame (fun x hx => hfr1 x (fun h => hzl (h ▸ hx))) hl
            have hr1 : Chain m1 rb.next r :=
              Seg_frame (fun x hx => hfr1 x (fun h => hzr (h ▸ List.mem_cons_of_mem _ hx))) hr2
            obtain ⟨s1, m4, hrun, hst4, hch, hlen, hfr, hval⟩ :=
              ih m1 head (some b) (some a) rb.next (acc ++ [b]) (a :: l) r
                (fun x y => by rw [hlt, ltOf_congr cmp hval1]) hl1 hr1 hinv1
                (List.nodup_append.mpr ⟨hnd, List.nodup_singleton b, by
                  intro x hx hx2
                  rw [List.mem_singleton] at hx2
                  subst hx2
                  exact hbacc hx⟩)
                (by
                  intro x hx
                  rcases List.mem_append.mp hx with hx | hx
                  · exact ⟨(hdis x hx).1, fun h => (hdis x hx).2 (List.mem_cons_of_mem _ h)⟩
                  · rw [List.mem_singleton] at hx
                    subst hx
                    exact ⟨hbl, hbr⟩)
                (fun x hx h => hlr x hx (List.mem_cons_of_mem _ h))
                (Or.inl (by simp)) hf2 hf0
            refine ⟨s1, m4, ?_, hst4, ?_, by rw [hlen, hlen1], ?_, fun x => by
              rw [hval x, hval1 x]⟩
            · simp only [merge_loop, load_some hla, load_some hrb, Res.ok_bind, if_neg hc,
                hst, hld, load_some hrb1, hmc]
              exact hrun
            · rw [mergeL_cons, hltab]
              simpa using hch
            · intro x h1 h2 h3
              rw [List.mem_cons, not_or] at h3
              rw [hfr x (by simp [h1, h3.1]) h2 h3.2, hfr1 x (fun h => h1 (h ▸ hz))]

/-! ## `divide_and_conquer` and `q_sort` -/

theorem sortL_mem (lt : Nat → Nat → Bool) (xs : List Nat) (b : Nat) :
    b ∈ sortL lt xs ↔ b ∈ xs :=
  (sortL_perm lt xs.length xs (Nat.le_refl _)).mem_iff

theorem sortL_length (lt : Nat → Nat → Bool) (xs : List Nat) :
    (sortL lt xs).length = xs.length :=
  (sortL_perm lt xs.length xs (Nat.le_refl _)).length_eq

theorem divide_and_conquer_spec (cmp : CStr → CStr → Int) (lt : Nat → Nat → Bool) :
    ∀ (fuel : Nat) (m : Heap) (head : Ptr) (xs : List Nat),
      (∀ x y, lt x y = ltOf cmp m x y) → Chain m head xs → xs.length < fuel →
      ∃ m1 head1, divide_and_conquer cmp fuel m head = .ok (m1, head1) ∧
        Chain m1 head1 (sortL lt xs) ∧ m1.length = m.length ∧
        (∀ b, b ∉ xs → cell m1 b = cell m b) ∧ (∀ b, valueAt m1 b = valueAt m b) := by
  intro fuel
  induction fuel with
  | zero => intro m head xs _ _ h; omega
  | succ f ih =>
    intro m head xs hlt hc hfuel
    by_cases h2 : xs.length < 2
    · refine ⟨m, head, ?_, ?_, rfl, fun _ _ => rfl, fun _ => rfl⟩
      · cases xs with
        | nil =>
          have : head = none := hc
          subst this
          simp only [divide_and_conquer]
        | cons a t =>
          obtain ⟨ha, c, hca, ht⟩ := Seg_cons.mp hc
          subst ha
          have htn : t = [] := List.length_eq_zero.mp (by simp only [List.length_cons] at h2; omega)
          subst htn
          have hn : c.next = none := ht
          simp only [divide_and_conquer, load_some hca, Res.ok_bind, hn]
      · rw [sortL_small lt h2]; exact hc
    · obtain ⟨a, b, r, hx⟩ : ∃ a b r, xs = a :: b :: r := by
        match xs, h2 with
        | [], h => simp at h
        | [_], h => simp at h
        | a :: b :: r, _ => exact ⟨a, b, r, rfl⟩
      have hnd := Chain_nodup hc
      obtain ⟨ha, hcell, hca, ht⟩ := Seg_cons.mp (hx ▸ hc)
      obtain ⟨hb, _⟩ := Seg_cons.mp ht
      have hk : (b :: r).length / 2 + 1 = (xs.length + 1) / 2 := by
        rw [hx]; simp only [List.length_cons]; omega
      have hn : xs.length = r.length + 2 := by rw [hx]; rfl
      obtain ⟨p, hsplit, hp⟩ := split_loop_spec f m xs (b :: r) head hcell.next hc ht
        (by simp only [List.length_cons] at hn ⊢; omega)
        (by simp only [List.length_cons] at hn ⊢; omega)
      have hklt : (b :: r).length / 2 < xs.length := by
        simp only [List.length_cons] at hn ⊢; omega
      rw [List.drop_eq_getElem_cons hklt, hk] at hp
      obtain ⟨hpz, zc, hzc, hR⟩ := Seg_cons.mp hp
      have hsplitx : xs = xs.take ((b :: r).length / 2) ++
          xs[(b :: r).length / 2] :: xs.drop ((xs.length + 1) / 2) := by
        conv_lhs => rw [← List.take_append_drop ((b :: r).length / 2) xs,
          List.drop_eq_getElem_cons hklt, hk]
      have hTlen : (xs.take ((b :: r).length / 2)).length = (b :: r).length / 2 := by
        rw [List.length_take]; omega
      have hL : xs.take ((xs.length + 1) / 2) =
          xs.take ((b :: r).length / 2) ++ [xs[(b :: r).length / 2]] := by
        rw [← hk, List.take_succ, List.getElem?_eq_getElem hklt]; rfl
      generalize xs[(b :: r).length / 2] = z at hp hpz hzc hsplitx hL
      generalize xs.take ((b :: r).length / 2) = T at hsplitx hTlen hL
      generalize hRdef : xs.drop ((xs.length + 1) / 2) = R at hR hsplitx
      generalize hLdef : xs.take ((xs.length + 1) / 2) = L at hL
      have hLlen : L.length = (xs.length + 1) / 2 := by
        rw [← hLdef, List.length_take]; omega
      have hRlen : R.length = xs.length - (xs.length + 1) / 2 := by
        rw [← hRdef, List.length_drop]
      rw [hsplitx] at hnd
      have hzT : z ∉ T := fun h =>
        List.disjoint_of_nodup_append hnd h (List.mem_cons_self _ _)
      have hzR : z ∉ R := (List.nodup_cons.mp (List.Nodup.of_append_right hnd)).1
      have hLR : ∀ x ∈ L, x ∉ R := by
        intro x hxL hxR
        rw [hL] at hxL
        rcases List.mem_append.mp hxL with h | h
        · exact List.disjoint_of_nodup_append hnd h (List.mem_cons_of_mem _ hxR)
        · rw [List.mem_singleton] at h
          subst h
          exact hzR hxR
      have hmemx : ∀ x, x ∈ xs ↔ x ∈ L ∨ x ∈ R := by
        intro x
        rw [hsplitx, hL]
        simp only [List.mem_append, List.mem_cons, List.mem_singleton, List.not_mem_nil,
          or_false]
        tauto
      have hc1 := hc
      rw [hsplitx] at hc1
      obtain ⟨r0, hT, hzseg⟩ := Seg_append.mp hc1
      obtain ⟨hr0, _⟩ := Seg_cons.mp hzseg
      subst hr0
      have hval1 := fun b => valueAt_set_next hzc none b
      have hchL : Chain (m.set z (some (list_ele_t.mk zc.value none))) head L := by
        rw [hL]
        exact Seg_snoc.mpr ⟨Seg_set hzT _ hT, _, cell_set_self hzc _, rfl⟩
      have hchR : Chain (m.set z (some (list_ele_t.mk zc.value none))) zc.next R :=
        Seg_set hzR _ hR
      obtain ⟨m2, l1, hrunL, hsL, hlen2, hfr2, hval2⟩ :=
        ih _ head L (fun x y => by rw [hlt, ltOf_congr cmp hval1]) hchL (by omega)
      have hchR2 : Chain m2 zc.next R :=
        Seg_frame (fun x hx => hfr2 x (fun h => hLR x h hx)) hchR
      have hval12 : ∀ b, valueAt m2 b = valueAt m b := fun b => by rw [hval2 b, hval1 b]
      obtain ⟨m3, r1, hrunR, hsR, hlen3, hfr3, hval3⟩ :=
        ih m2 zc.next R (fun x y => by rw [hlt, ltOf_congr cmp hval12]) hchR2 (by omega)
      have hsL3 : Chain m3 l1 (sortL lt L) :=
        Seg_frame (fun x hx => hfr3 x (hLR x ((sortL_mem lt L x).mp hx))) hsL
      have hval13 : ∀ b, valueAt m3 b = valueAt m b := fun b => by rw [hval3 b, hval12 b]
      obtain ⟨s1, m4, hrunM, hst4, hch4, hlen4, hfr4, hval4⟩ :=
        merge_loop_spec cmp lt f m3 head none l1 r1 [] (sortL lt L) (sortL lt R)
          (fun x y => by rw [hlt, ltOf_congr cmp hval13]) hsL3 hsR (Or.inl ⟨rfl, rfl⟩)
          List.nodup_nil (fun _ h => by cases h)
          (fun x hx h => hLR x ((sortL_mem lt L x).mp hx) ((sortL_mem lt R x).mp h))
          (Or.inr ⟨fun h => by
              have := congrArg List.length h
              rw [sortL_length, hLlen] at this
              simp at this; omega,
            fun h => by
              have := congrArg List.length h
              rw [sortL_length, hRlen] at this
              simp at this; omega⟩)
          (by rw [sortL_length, sortL_length]; omega) (by omega)
      refine ⟨m4, s1.head, ?_, ?_, ?_, ?_, fun x => by rw [hval4 x, hval13 x]⟩
      · subst ha
        simp only [divide_and_conquer, load_some hca, Res.ok_bind, hb]
        rw [← hb, hsplit, hpz]
        simp only [Res.ok_bind, load_some hzc, store_next_some hzc, hrunL, hrunR, hrunM, hst4]
      · rw [sortL_big lt h2, hLdef, hRdef]
        simpa using hch4
      · rw [hlen4, hlen3, hlen2]; simp
      · intro x hx
        have hxL : x ∉ L := fun h => hx ((hmemx x).mpr (Or.inl h))
        have hxR : x ∉ R := fun h => hx ((hmemx x).mpr (Or.inr h))
        rw [hfr4 x (by simp) (fun h => hxL ((sortL_mem lt L x).mp h))
          (fun h => hxR ((sortL_mem lt R x).mp h)), hfr3 x hxR, hfr2 x hxL]
        apply cell_set_ne
        rintro rfl
        exact hxL (by rw [hL]; simp)

theorem q_sort_spec (cmp : CStr → CStr → Int) {m : Heap} {q : queue_t} {xs : List Nat}
    (hq : IsQueue m q xs) {fuel : Nat} (hf : xs.length < fuel) :
    ∃ m1 q1, q_sort cmp fuel m (some q) = .ok (m1, some q1) ∧
      IsQueue m1 q1 (sortL (ltOf cmp m) xs) ∧ q1.size = q.size ∧ m1.length = m.length ∧
      (∀ b, b ∉ xs → cell m1 b = cell m b) ∧ (∀ b, valueAt m1 b = valueAt m b) := by
  obtain ⟨hc, htail, hsize⟩ := hq
  by_cases h2 : xs.length < 2
  · refine ⟨m, q, ?_, ⟨?_, ?_, ?_⟩, rfl, rfl, fun _ _ => rfl, fun _ => rfl⟩
    · by_cases h0 : q.size = 0
      · simp only [q_sort, h0, if_true]
      · have h1 : q.size = 1 := by omega
        simp [q_sort, h1]
    · rw [sortL_small _ h2]; exact hc
    · rw [sortL_small _ h2]; exact htail
    · rw [sortL_small _ h2]; exact hsize
  · obtain ⟨m1, head1, hrun, hch, hlen, hfr, hval⟩ :=
      divide_and_conquer_spec cmp (ltOf cmp m) fuel m q.head xs (fun _ _ => rfl) hc hf
    have hne : sortL (ltOf cmp m) xs ≠ [] := by
      intro h
      have := congrArg List.length h
      rw [sortL_length, List.length_nil] at this
      omega
    have htl := tail_loop_spec fuel m1 _ head1 hch hne (by rw [sortL_length]; omega)
    have h0 : q.size ≠ 0 := by omega
    have h1 : q.size ≠ 1 := by omega
    refine ⟨m1, queue_t.mk head1 (sortL (ltOf cmp m) xs).getLast? q.size, ?_,
      ⟨hch, rfl, ?_⟩, rfl, hlen, hfr, hval⟩
    · simp only [q_sort, h0, h1, if_false, hrun, Res.ok_bind, htl]
    · show q.size = (sortL (ltOf cmp m) xs).length
      rw [sortL_length]; exact hsize

theorem mergeL_pairwise (lt : Nat → Nat → Bool) (le : Nat → Nat → Prop)
    (h1 : ∀ a b, lt a b = true → le a b) (h2 : ∀ a b, lt a b = false → le b a)
    (htr : ∀ a b c, le a b → le b c → le a c) :
    ∀ (n : Nat) (l r : List Nat), l.length + r.length = n → l.Pairwise le → r.Pairwise le →
      (mergeL lt l r).Pairwise le := by
  intro n
  induction n with
  | zero =>
    intro l r h _ hr
    have hl : l = [] := List.length_eq_zero.mp (by omega)
    subst hl
    rw [mergeL_nil_left]; exact hr
  | succ n ih =>
    intro l r h hl hr
    cases l with
    | nil => rw [mergeL_nil_left]; exact hr
    | cons a l =>
      cases r with
      | nil => rw [mergeL_nil_right]; exact hl
      | cons b r =>
        rw [mergeL_cons]
        obtain ⟨hal, hl2⟩ := List.pairwise_cons.mp hl
        obtain ⟨hbr, hr2⟩ := List.pairwise_cons.mp hr
        cases hab : lt a b with
        | true =>
          rw [if_pos rfl]
          refine List.pairwise_cons.mpr ⟨?_, ih l (b :: r) (by simp at h ⊢; omega) hl2 hr⟩
          intro x hx
          have hx2 := (mergeL_perm lt _ l (b :: r) rfl).mem_iff.mp hx
          rcases List.mem_append.mp hx2 with hx3 | hx3
          · exact hal x hx3
          · rcases List.mem_cons.mp hx3 with rfl | hx4
            · exact h1 a x hab
            · exact htr a b x (h1 a b hab) (hbr x hx4)
        | false =>
          rw [if_neg (by simp)]
          refine List.pairwise_cons.mpr ⟨?_, ih (a :: l) r (by simp at h ⊢; omega) hl hr2⟩
          intro x hx
          have hx2 := (mergeL_perm lt _ (a :: l) r rfl).mem_iff.mp hx
          rcases List.mem_append.mp hx2 with hx3 | hx3
          · rcases List.mem_cons.mp hx3 with rfl | hx4
            · exact h2 x b hab
            · exact htr b a x (h2 a b hab) (hal x hx4)
          · exact hbr x hx3

theorem sortL_pairwise (lt : Nat → Nat → Bool) (le : Nat → Nat → Prop)
    (h1 : ∀ a b, lt a b = true → le a b) (h2 : ∀ a b, lt a b = false → le b a)
    (htr : ∀ a b c, le a b → le b c → le a c) :
    ∀ (n : Nat) (xs : List Nat), xs.length ≤ n → (sortL lt xs).Pairwise le := by
  intro n
  induction n with
  | zero =>
    intro xs h
    have hx : xs = [] := List.length_eq_zero.mp (by omega)
    subst hx
    rw [sortL_small lt (by simp)]
    exact List.Pairwise.nil
  | succ n ih =>
    intro xs h
    by_cases h2x : xs.length < 2
    · rw [sortL_small lt h2x]
      match xs, h2x with
      | [], _ => exact List.Pairwise.nil
      | [a], _ => exact List.pairwise_singleton _ _
      | _ :: _ :: _, h => simp only [List.length_cons] at h; omega
    · rw [sortL_big lt h2x]
      exact mergeL_pairwise lt le h1 h2 htr _ _ _ rfl
        (ih _ (by simp only [List.length_take]; omega))
        (ih _ (by simp only [List.length_drop]; omega))

theorem cmp_flip {cmp : CStr → CStr → Int}
    (hanti : ∀ x y, Int.sign (cmp x y) = -Int.sign (cmp y x)) {x y : CStr}
    (h : ¬ cmp x y < 0) : cmp y x ≤ 0 := by
  have hs := hanti x y
  rcases Int.lt_trichotomy (cmp y x) 0 with h1 | h1 | h1
  · omega
  · omega
  · rw [Int.sign_eq_one_of_pos h1] at hs
    have := Int.sign_eq_neg_one_iff_neg.mp hs
    omega

/-! ## The output buffer of `q_remove_head` -/

theorem range_getD (v : List Nat) (n : Nat) :
    (List.range n).map (fun i => v.getD i 0) = v.take n ++ List.replicate (n - v.length) 0 := by
  apply List.ext_getElem
  · simp; omega
  · intro i h1 h2
    simp at h1
    simp only [List.getElem_map, List.getElem_range, List.getElem_append, List.length_take]
    by_cases h : i < v.length
    · have : i < min n v.length := by omega
      simp [this, List.getD_eq_getElem, h]
    · have : ¬ i < min n v.length := by omega
      have h3 : v[i]? = none := List.getElem?_eq_none (by omega)
      simp [this, h3]

theorem foldl_range_set (f : Nat → Nat) :
    ∀ (n : Nat) (buf : List Nat), n ≤ buf.length →
      ((List.range n).map fun i => (i, f i)).foldl (fun b w => b.set w.1 w.2) buf =
        (List.range n).map f ++ buf.drop n := by
  intro n
  induction n with
  | zero => intro buf _; simp
  | succ n ih =>
    intro buf h
    rw [List.range_succ, List.map_append, List.foldl_append, ih buf (by omega)]
    simp only [List.map_cons, List.map_nil, List.foldl_cons, List.foldl_nil, List.map_append]
    rw [List.set_append_right _ _ (by simp)]
    simp only [List.length_map, List.length_range, Nat.sub_self]
    rw [List.drop_eq_getElem_cons (show n < buf.length by omega), List.set_cons_zero,
      List.append_assoc]
    rfl

theorem applyWrites_strncpy (v buf : List Nat) (n : Nat) (h : buf.length = n + 1) :
    applyWrites buf (strncpy v n ++ [(n, 0)]) =
      v.take n ++ List.replicate (n + 1 - min v.length n) 0 := by
  unfold applyWrites strncpy
  rw [List.foldl_append, foldl_range_set (fun i => v.getD i 0) n buf (by omega)]
  simp only [List.foldl_cons, List.foldl_nil]
  rw [List.set_append_right _ _ (by simp)]
  simp only [List.length_map, List.length_range, Nat.sub_self]
  rw [List.drop_eq_getElem_cons (show n < buf.length by omega), List.set_cons_zero,
    List.drop_of_length_le (by omega), range_getD, List.append_assoc]
  congr 1
  have : n + 1 - min v.length n = (n - v.length) + 1 := by omega
  rw [this, List.replicate_succ']

theorem size_pred {c : Nat} (h1 : 1 ≤ c) (h2 : c < SIZE_MOD) :
    (c + SIZE_MOD - 1) % SIZE_MOD = c - 1 := by
  have : c + SIZE_MOD - 1 = (c - 1) + SIZE_MOD := by omega
  rw [this, Nat.add_mod_right, Nat.mod_eq_of_lt (by omega)]

/-! ## The invariant in the words of the specification -/

theorem follow_of_Seg {m : Heap} {xs : List Nat} :
    ∀ {p e : Ptr}, Seg m p xs e → follow m xs.length p = some e := by
  induction xs with
  | nil => intro p e h; rw [show p = e from h]; rfl
  | cons a t ih =>
    intro p e h
    obtain ⟨hp, c, hc, ht⟩ := Seg_cons.mp h
    subst hp
    simp only [List.length_cons, follow, hc]
    exact ih ht

theorem Seg_of_follow {m : Heap} :
    ∀ (k : Nat) {p e : Ptr}, follow m k p = some e → ∃ xs, xs.length = k ∧ Seg m p xs e := by
  intro k
  induction k with
  | zero =>
    intro p e h
    simp only [follow, Option.some.injEq] at h
    exact ⟨[], rfl, h⟩
  | succ k ih =>
    intro p e h
    cases p with
    | none => simp [follow] at h
    | some a =>
      cases hc : cell m a with
      | none => simp [follow, hc] at h
      | some c =>
        simp only [follow, hc] at h
        obtain ⟨xs, hl, hs⟩ := ih h
        exact ⟨a :: xs, by simp [hl], Seg_cons.mpr ⟨rfl, c, hc, hs⟩⟩

theorem QueueInv_of_IsQueue {m : Heap} {q : queue_t} {xs : List Nat} (hq : IsQueue m q xs) :
    QueueInv m q := by
  obtain ⟨hc, htail, hsize⟩ := hq
  rcases List.eq_nil_or_concat' xs with hx | ⟨init, t, hx⟩
  · subst hx
    have hh : q.head = none := hc
    have ht : q.tail = none := htail
    have hs : q.size = 0 := hsize
    refine ⟨by simp [hh, hs], by simp [hh, ht], fun h => by omega⟩
  · subst hx
    have hh := Chain_head hc
    have ht : q.tail = some t := by rw [htail]; simp
    have hs : q.size = init.length + 1 := by rw [hsize]; simp
    obtain ⟨hseg, c, hct, hcn⟩ := Seg_snoc.mp hc
    refine ⟨?_, ?_, fun _ => ⟨?_, t, c, ht, hct, hcn⟩⟩
    · rw [hh, hs]
      cases init <;> simp
    · rw [hh, ht]
      cases init <;> simp
    · rw [hs, ht, Nat.add_sub_cancel]
      exact follow_of_Seg hseg

theorem IsQueue_of_QueueInv {m : Heap} {q : queue_t} (h : QueueInv m q) :
    ∃ xs, IsQueue m q xs := by
  obtain ⟨h1, h2, h3⟩ := h
  by_cases hs : q.size = 0
  · have hh := h1.mp hs
    exact ⟨[], hh, h2.mp hh, hs⟩
  · obtain ⟨hf, t, c, ht, hct, hcn⟩ := h3 (by omega)
    rw [ht] at hf
    obtain ⟨xs, hl, hseg⟩ := Seg_of_follow _ hf
    refine ⟨xs ++ [t], Seg_snoc.mpr ⟨hseg, c, hct, hcn⟩, by rw [ht]; simp, ?_⟩
    rw [List.length_append, hl, List.length_singleton]
    omega

/-! ## The claims about `q_sort` and `q_reverse` -/

theorem lenCmp_anti (x y : CStr) : Int.sign (lenCmp x y) = -Int.sign (lenCmp y x) := by
  unfold lenCmp
  rw [← Int.sign_neg]
  congr 1
  omega

theorem lenCmp_trans (x y z : CStr) (h1 : lenCmp x y ≤ 0) (h2 : lenCmp y z ≤ 0) :
    lenCmp x z ≤ 0 := by
  unfold lenCmp at *
  omega

/-- C1: when the comparator is sign-antisymmetric and transitive, `q_sort` on a
valid queue (in particular one with at least two elements) returns, given
enough fuel, a valid queue whose head-to-tail values are non-decreasing: every
adjacent pair `(a, b)` has `cmp a b ≤ 0`. -/
theorem q_sort_sorted (cmp : CStr → CStr → Int)
    (hanti : ∀ x y, Int.sign (cmp x y) = -Int.sign (cmp y x))
    (htrans : ∀ x y z, cmp x y ≤ 0 → cmp y z ≤ 0 → cmp x z ≤ 0)
    (m : Heap) (q : queue_t) (xs : List Nat) (hq : IsQueue m q xs)
    (fuel : Nat) (hf : xs.length < fuel) :
    ∃ m1 q1 ys, q_sort cmp fuel m (some q) = .ok (m1, some q1) ∧ IsQueue m1 q1 ys ∧
      List.Chain' (fun a b => cmp a b ≤ 0) (ys.map (valueAt m1)) := by
  obtain ⟨m1, q1, hrun, hq1, _, _, _, hval⟩ := q_sort_spec cmp hq hf
  refine ⟨m1, q1, _, hrun, hq1, List.Pairwise.chain' ?_⟩
  rw [List.pairwise_map]
  have hp := sortL_pairwise (ltOf cmp m) (fun a b => cmp (valueAt m a) (valueAt m b) ≤ 0)
    (fun a b h => by
      have : cmp (valueAt m a) (valueAt m b) < 0 := of_decide_eq_true h
      omega)
    (fun a b h => cmp_flip hanti (of_decide_eq_false h))
    (fun a b c => htrans _ _ _) xs.length xs (Nat.le_refl _)
  refine hp.imp ?_
  intro a b hab
  rw [hval a, hval b]; exact hab

/-- Witness for C1 on the four-element sample queue. -/
theorem q_sort_sorted_witness :
    IsQueue sampleHeap sampleQueue [0, 1, 2, 3] ∧
      ∃ m1 q1 ys, q_sort lenCmp 5 sampleHeap (some sampleQueue) = .ok (m1, some q1) ∧
        IsQueue m1 q1 ys ∧ List.Chain' (fun a b => lenCmp a b ≤ 0) (ys.map (valueAt m1)) :=
  ⟨by decide,
    q_sort_sorted lenCmp lenCmp_anti lenCmp_trans sampleHeap sampleQueue [0, 1, 2, 3]
      (by decide) 5 (by decide)⟩

/-- C2: for every comparator, `q_sort` on a valid queue returns, given enough
fuel, a valid queue over the same cells: the new chain is a permutation of the
old one, every original cell occurs in it exactly once, no stored string
changes (so the values form the same multiset), and `size` is unchanged. On
an absent queue it does nothing. -/
theorem q_sort_permutation (cmp : CStr → CStr → Int) (m : Heap) (q : queue_t)
    (xs : List Nat) (hq : IsQueue m q xs) (fuel : Nat) (hf : xs.length < fuel) :
    (∃ m1 q1 ys, q_sort cmp fuel m (some q) = .ok (m1, some q1) ∧ IsQueue m1 q1 ys ∧
      ys.Perm xs ∧ (∀ a ∈ xs, ys.count a = 1) ∧ (∀ a, valueAt m1 a = valueAt m a) ∧
      (ys.map (valueAt m1)).Perm (xs.map (valueAt m)) ∧ q1.size = q.size ∧
      m1.length = m.length) ∧
    q_sort cmp fuel m none = .ok (m, none) := by
  obtain ⟨m1, q1, hrun, hq1, hsz, hlen, _, hval⟩ := q_sort_spec cmp hq hf
  have hperm := sortL_perm (ltOf cmp m) xs.length xs (Nat.le_refl _)
  refine ⟨⟨m1, q1, _, hrun, hq1, hperm, ?_, hval, ?_, hsz, hlen⟩, rfl⟩
  · intro a ha
    exact List.count_eq_one_of_mem (hperm.nodup_iff.mpr (Chain_nodup hq.1))
      (hperm.mem_iff.mpr ha)
  · have : valueAt m1 = valueAt m := funext hval
    rw [this]
    exact hperm.map _

/-- Witness for C2 on the four-element sample queue. -/
theorem q_sort_permutation_witness :
    IsQueue sampleHeap sampleQueue [0, 1, 2, 3] ∧
      ((∃ m1 q1 ys, q_sort lenCmp 5 sampleHeap (some sampleQueue) = .ok (m1, some q1) ∧
        IsQueue m1 q1 ys ∧ ys.Perm [0, 1, 2, 3] ∧ (∀ a ∈ [0, 1, 2, 3], ys.count a = 1) ∧
        (∀ a, valueAt m1 a = valueAt sampleHeap a) ∧
        (ys.map (valueAt m1)).Perm ([0, 1, 2, 3].map (valueAt sampleHeap)) ∧
        q1.size = sampleQueue.size ∧ m1.length = sampleHeap.length) ∧
      q_sort lenCmp 5 sampleHeap none = .ok (sampleHeap, none)) :=
  ⟨by decide,
    q_sort_permutation lenCmp sampleHeap sampleQueue [0, 1, 2, 3] (by decide) 5 (by decide)⟩

/-- C7: on a valid queue `q_reverse` returns, given enough fuel, a valid queue
whose head-to-tail chain is the reverse of the chain before the call, with
the strings untouched, `head` the former `tail`, `tail` the former `head` and
`size` unchanged; on an empty or absent queue nothing changes. -/
theorem q_reverse_correct (m : Heap) (q : queue_t) (xs : List Nat) (hq : IsQueue m q xs)
    (fuel : Nat) (hf : xs.length < fuel) :
    (∃ m1 q1, q_reverse fuel m (some q) = .ok (m1, some q1) ∧ IsQueue m1 q1 xs.reverse ∧
      (∀ a, valueAt m1 a = valueAt m a) ∧ q1.head = q.tail ∧ q1.tail = q.head ∧
      q1.size = q.size) ∧
    (q.size = 0 → q_reverse fuel m (some q) = .ok (m, some q)) ∧
    q_reverse fuel m none = .ok (m, none) := by
  obtain ⟨m1, hrun, hq1, _, _, hval⟩ := q_reverse_spec hq hf
  refine ⟨⟨m1, _, hrun, hq1, hval, rfl, rfl, rfl⟩, ?_, rfl⟩
  intro h0
  simp only [q_reverse, h0, if_true]

/-- Witness for C7 on the four-element sample queue. -/
theorem q_reverse_correct_witness :
    IsQueue sampleHeap sampleQueue [0, 1, 2, 3] ∧
      ((∃ m1 q1, q_reverse 5 sampleHeap (some sampleQueue) = .ok (m1, some q1) ∧
        IsQueue m1 q1 [0, 1, 2, 3].reverse ∧ (∀ a, valueAt m1 a = valueAt sampleHeap a) ∧
        q1.head = sampleQueue.tail ∧ q1.tail = sampleQueue.head ∧
        q1.size = sampleQueue.size) ∧
      (sampleQueue.size = 0 →
        q_reverse 5 sampleHeap (some sampleQueue) = .ok (sampleHeap, some sampleQueue)) ∧
      q_reverse 5 sampleHeap none = .ok (sampleHeap, none)) :=
  ⟨by decide, q_reverse_correct sampleHeap sampleQueue [0, 1, 2, 3] (by decide) 5 (by decide)⟩

/-- C8: on a valid queue of any length, two calls of `q_reverse` in a row
succeed (given enough fuel) and give back the original queue record, so the
original `head`, `tail` and `size`, over the original chain with the original
strings. -/
theorem q_reverse_involution (m : Heap) (q : queue_t) (xs : List Nat) (hq : IsQueue m q xs)
    (fuel : Nat) (hf : xs.length < fuel) :
    ∃ m1 q1 m2, q_reverse fuel m (some q) = .ok (m1, some q1) ∧
      q_reverse fuel m1 (some q1) = .ok (m2, some q) ∧ IsQueue m2 q xs ∧
      (∀ a, valueAt m2 a = valueAt m a) := by
  obtain ⟨m1, hrun1, hq1, _, _, hval1⟩ := q_reverse_spec hq hf
  obtain ⟨m2, hrun2, hq2, _, _, hval2⟩ :=
    q_reverse_spec hq1 (show xs.reverse.length < fuel by rw [List.length_reverse]; exact hf)
  rw [List.reverse_reverse] at hq2
  exact ⟨m1, _, m2, hrun1, hrun2, hq2, fun a => by rw [hval2 a, hval1 a]⟩

/-- Witness for C8 on the four-element sample queue. -/
theorem q_reverse_involution_witness :
    IsQueue sampleHeap sampleQueue [0, 1, 2, 3] ∧
      ∃ m1 q1 m2, q_reverse 5 sampleHeap (some sampleQueue) = .ok (m1, some q1) ∧
        q_reverse 5 m1 (some q1) = .ok (m2, some sampleQueue) ∧
        IsQueue m2 sampleQueue [0, 1, 2, 3] ∧ (∀ a, valueAt m2 a = valueAt sampleHeap a) :=
  ⟨by decide,
    q_reverse_involution sampleHeap sampleQueue [0, 1, 2, 3] (by decide) 5 (by decide)⟩

/-! ## The queue invariant -/

theorem IsQueue_push {m : Heap} {q : queue_t} {xs : List Nat} (hq : IsQueue m q xs)
    (v : Option list_ele_t) : IsQueue (m ++ [v]) q xs :=
  ⟨Seg_push hq.1 v, hq.2.1, hq.2.2⟩

theorem q_remove_head_empty {m : Heap} {q : queue_t} (h : q.size = 0)
    (sp : Option (List Nat)) (bufsize : Nat) :
    q_remove_head m (some q) sp bufsize =
      .ok { ret := false, heap := m, q := some q, writes := [], sp := sp } := by
  simp only [q_remove_head, h, if_true]

theorem BufferOk_writes {buf : List Nat} {bufsize : Nat} (hbuf : BufferOk (some buf) bufsize)
    (v : CStr) :
    ∀ w ∈ strncpy v ((bufsize + SIZE_MOD - 1) % SIZE_MOD) ++
      [((bufsize + SIZE_MOD - 1) % SIZE_MOD, 0)], w.1 < buf.length := by
  obtain ⟨h1, h2, h3⟩ := hbuf
  rw [size_pred h1 h3]
  intro w hmem
  rw [strncpy] at hmem
  rcases List.mem_append.mp hmem with h | h
  · obtain ⟨i, hi, rfl⟩ := List.mem_map.mp h
    have := List.mem_range.mp hi
    show i < buf.length
    omega
  · rw [List.mem_singleton] at h
    subst h
    show bufsize - 1 < buf.length
    omega

theorem q_remove_head_inside {m : Heap} {q : queue_t} {a : Nat} {t : List Nat}
    (hq : IsQueue m q (a :: t)) (sp : Option (List Nat)) (bufsize : Nat)
    (hbuf : BufferOk sp bufsize) :
    ∃ r q1, q_remove_head m (some q) sp bufsize = .ok r ∧ r.ret = true ∧
      r.heap = free m a ∧ r.q = some q1 ∧ IsQueue (free m a) q1 t ∧
      (∀ buf, sp = some buf → ∀ w ∈ r.writes, w.1 < buf.length) := by
  obtain ⟨r, q1, hrun, hret, hheap, hrq, hq1, _, _, _, hw, _⟩ := q_remove_head_spec hq sp bufsize
  refine ⟨r, q1, hrun, hret, hheap, hrq, hq1, ?_⟩
  intro buf hsp w hmem
  subst hsp
  rw [hw] at hmem
  exact BufferOk_writes hbuf _ w hmem

/-- C3: `q_new` establishes the queue invariant (`size == 0` iff `head` is
`NULL` iff `tail` is `NULL`; when `size > 0`, `size - 1` steps along `next`
from `head` reach `tail`, whose `next` is `NULL`), and `q_insert_head`,
`q_insert_tail`, `q_remove_head`, `q_reverse` and `q_sort` each return without
a fault and preserve it, whatever they return. `q_remove_head` is called with
no buffer or with a buffer of at least `bufsize >= 1` bytes, and then writes
only inside the buffer. -/
theorem queue_invariant (m : Heap) (q : queue_t) (hinv : QueueInv m q)
    (cmp : CStr → CStr → Int) (s : CStr) (okNode okValue : Bool) (sp : Option (List Nat))
    (bufsize fuel : Nat) (hbuf : BufferOk sp bufsize) (hf : q.size < fuel) :
    (∃ q0, q_new true = some q0 ∧ QueueInv m q0) ∧
    (∃ ret m1 q1, q_insert_head m (some q) s okNode okValue = (ret, m1, some q1) ∧
      QueueInv m1 q1) ∧
    (∃ ret m1 q1, q_insert_tail m (some q) s okNode okValue = .ok (ret, m1, some q1) ∧
      QueueInv m1 q1) ∧
    (∃ r q1, q_remove_head m (some q) sp bufsize = .ok r ∧ r.q = some q1 ∧
      QueueInv r.heap q1 ∧ ∀ buf, sp = some buf → ∀ w ∈ r.writes, w.1 < buf.length) ∧
    (∃ m1 q1, q_reverse fuel m (some q) = .ok (m1, some q1) ∧ QueueInv m1 q1) ∧
    (∃ m1 q1, q_sort cmp fuel m (some q) = .ok (m1, some q1) ∧ QueueInv m1 q1) := by
  obtain ⟨xs, hq⟩ := IsQueue_of_QueueInv hinv
  have hfx : xs.length < fuel := by rw [← hq.2.2]; exact hf
  refine ⟨?_, ?_, ?_, ?_, ?_, ?_⟩
  · exact ⟨_, rfl, QueueInv_of_IsQueue (show IsQueue m _ [] from ⟨rfl, rfl, rfl⟩)⟩
  · cases okNode with
    | false => exact ⟨false, m, q, rfl, hinv⟩
    | true =>
      cases okValue with
      | false => exact ⟨false, m ++ [none], q, rfl, QueueInv_of_IsQueue (IsQueue_push hq _)⟩
      | true =>
        obtain ⟨q1, hrun, hq1, _⟩ := q_insert_head_spec hq s
        exact ⟨true, _, q1, hrun, QueueInv_of_IsQueue hq1⟩
  · cases okNode with
    | false => exact ⟨false, m, q, rfl, hinv⟩
    | true =>
      cases okValue with
      | false => exact ⟨false, m ++ [none], q, rfl, QueueInv_of_IsQueue (IsQueue_push hq _)⟩
      | true =>
        obtain ⟨m1, q1, hrun, hq1, _⟩ := q_insert_tail_spec hq s
        exact ⟨true, m1, q1, hrun, QueueInv_of_IsQueue hq1⟩
  · cases xs with
    | nil =>
      exact ⟨_, q, q_remove_head_empty hq.2.2 sp bufsize, rfl, hinv,
        fun _ _ w hw => absurd hw (List.not_mem_nil w)⟩
    | cons a t =>
      obtain ⟨r, q1, hrun, _, hheap, hrq, hq1, hin⟩ := q_remove_head_inside hq sp bufsize hbuf
      exact ⟨r, q1, hrun, hrq, by rw [hheap]; exact QueueInv_of_IsQueue hq1, hin⟩
  · obtain ⟨m1, hrun, hq1, _⟩ := q_reverse_spec hq hfx
    exact ⟨m1, _, hrun, QueueInv_of_IsQueue hq1⟩
  · obtain ⟨m1, q1, hrun, hq1, _⟩ := q_sort_spec cmp hq hfx
    exact ⟨m1, q1, hrun, QueueInv_of_IsQueue hq1⟩

/-- Witness for C3 on the four-element sample queue. -/
theorem queue_invariant_witness :
    QueueInv sampleHeap sampleQueue ∧ BufferOk (some [9, 9]) 2 ∧
      ((∃ q0, q_new true = some q0 ∧ QueueInv sampleHeap q0) ∧
      (∃ ret m1 q1, q_insert_head sampleHeap (some sampleQueue) [7] true true =
          (ret, m1, some q1) ∧ QueueInv m1 q1) ∧
      (∃ ret m1 q1, q_insert_tail sampleHeap (some sampleQueue) [7] true true =
          .ok (ret, m1, some q1) ∧ QueueInv m1 q1) ∧
      (∃ r q1, q_remove_head sampleHeap (some sampleQueue) (some [9, 9]) 2 = .ok r ∧
        r.q = some q1 ∧ QueueInv r.heap q1 ∧
        ∀ buf, some [9, 9] = some buf → ∀ w ∈ r.writes, w.1 < buf.length) ∧
      (∃ m1 q1, q_reverse 5 sampleHeap (some sampleQueue) = .ok (m1, some q1) ∧
        QueueInv m1 q1) ∧
      (∃ m1 q1, q_sort lenCmp 5 sampleHeap (some sampleQueue) = .ok (m1, some q1) ∧
        QueueInv m1 q1)) :=
  ⟨⟨by decide, by decide, fun _ => ⟨by decide, 3, _, rfl, rfl, rfl⟩⟩, by decide,
    queue_invariant sampleHeap sampleQueue
      ⟨by decide, by decide, fun _ => ⟨by decide, 3, _, rfl, rfl, rfl⟩⟩
      lenCmp [7] true true (some [9, 9]) 2 5 (by decide) (by decide)⟩

/-! ## Removal with a buffer -/

theorem q_remove_head_buffer {m : Heap} {q : queue_t} {a : Nat} {t : List Nat}
    (hq : IsQueue m q (a :: t)) (buf : List Nat) (h1 : 1 ≤ buf.length)
    (h2 : buf.length < SIZE_MOD) :
    ∃ r q1, q_remove_head m (some q) (some buf) buf.length = .ok r ∧ r.ret = true ∧
      r.heap = free m a ∧ r.q = some q1 ∧ IsQueue (free m a) q1 t ∧
      r.writes = strncpy (valueAt m a) (buf.length - 1) ++ [(buf.length - 1, 0)] ∧
      r.sp = some ((valueAt m a).take (buf.length - 1) ++
        List.replicate (buf.length - min (valueAt m a).length (buf.length - 1)) 0) := by
  obtain ⟨r, q1, hrun, hret, hheap, hrq, hq1, _, _, _, hw, hsp, _⟩ :=
    q_remove_head_spec hq (some buf) buf.length
  rw [size_pred h1 h2] at hw
  refine ⟨r, q1, hrun, hret, hheap, hrq, hq1, hw, ?_⟩
  rw [hsp, hw, Option.map_some', applyWrites_strncpy _ _ _ (by omega)]
  have : buf.length - 1 + 1 = buf.length := by omega
  rw [this]

theorem valueAt_free_ne (m : Heap) {a b : Nat} (h : b ≠ a) :
    valueAt (free m a) b = valueAt m b := by
  unfold valueAt free
  rw [cell_set_ne m (fun h1 => h h1.symm)]

theorem IsQueue_record {m : Heap} {q : queue_t} {xs : List Nat} (hq : IsQueue m q xs) :
    q = { head := xs.head?, tail := xs.getLast?, size := xs.length } := by
  obtain ⟨hc, ht, hs⟩ := hq
  cases q
  simp only [queue_t.mk.injEq]
  exact ⟨Chain_head hc, ht, hs⟩

/-- C6: on a valid queue, a successful `q_insert_head` of `v` followed at once
by `q_remove_head` with a buffer of capacity above the length of `v` returns
true, leaves `v` and then NUL bytes in the buffer, and gives back the queue
record of before the insertion (same `head`, `tail` and `size`) over the
same chain with the same strings; an empty queue is empty again. -/
theorem insert_head_remove_head (m : Heap) (q : queue_t) (xs : List Nat)
    (hq : IsQueue m q xs) (v : CStr) (buf : List Nat) (hcap : v.length < buf.length)
    (hsz : buf.length < SIZE_MOD) :
    ∃ m1 q1 r, q_insert_head m (some q) v true true = (true, m1, some q1) ∧
      q_remove_head m1 (some q1) (some buf) buf.length = .ok r ∧ r.ret = true ∧
      r.sp = some (v ++ List.replicate (buf.length - v.length) 0) ∧ r.q = some q ∧
      IsQueue r.heap q xs ∧ (∀ a ∈ xs, valueAt r.heap a = valueAt m a) ∧
      (xs = [] → r.q = some { head := none, tail := none, size := 0 }) := by
  obtain ⟨q1, hins, hq1, _⟩ := q_insert_head_spec hq v
  obtain ⟨r, q2, hrem, hret, hheap, hrq, hq2, _, hsp⟩ :=
    q_remove_head_buffer hq1 buf (by omega) hsz
  have hv : valueAt (m ++ [some (list_ele_t.mk v q.head)]) m.length = v := by
    simp [valueAt, cell_append]
  have hqq : q2 = q := by rw [IsQueue_record hq2, ← IsQueue_record hq]
  subst hqq
  refine ⟨_, q1, r, hins, hrem, hret, ?_, hrq, by rw [hheap]; exact hq2, ?_, ?_⟩
  · rw [hsp, hv, List.take_of_length_le (by omega), Nat.min_eq_left (by omega)]
  · intro a ha
    have hlt : a < m.length := Seg_lt hq.1 ha
    rw [hheap, valueAt_free_ne _ (Nat.ne_of_lt hlt), valueAt_push_old m _ (Nat.ne_of_lt hlt)]
  · intro hx
    rw [hrq, IsQueue_record hq, hx]
    rfl

/-- Witness for C6 on the four-element sample queue. -/
theorem insert_head_remove_head_witness :
    IsQueue sampleHeap sampleQueue [0, 1, 2, 3] ∧
      ∃ m1 q1 r, q_insert_head sampleHeap (some sampleQueue) [7, 8] true true =
          (true, m1, some q1) ∧
        q_remove_head m1 (some q1) (some [9, 9, 9, 9]) [9, 9, 9, 9].length = .ok r ∧
        r.ret = true ∧
        r.sp = some ([7, 8] ++ List.replicate ([9, 9, 9, 9].length - [7, 8].length) 0) ∧
        r.q = some sampleQueue ∧ IsQueue r.heap sampleQueue [0, 1, 2, 3] ∧
        (∀ a ∈ [0, 1, 2, 3], valueAt r.heap a = valueAt sampleHeap a) ∧
        ([0, 1, 2, 3] = [] → r.q = some { head := none, tail := none, size := 0 }) :=
  ⟨by decide,
    insert_head_remove_head sampleHeap sampleQueue [0, 1, 2, 3] (by decide) [7, 8]
      [9, 9, 9, 9] (by decide) (by decide)⟩

/-- C9: on a valid non-empty queue whose head string has length `L`,
`q_remove_head` with a buffer of capacity `c ≥ 1` returns true, removes the
head, and leaves in the buffer the first `min L (c - 1)` bytes of the head
string followed by NUL bytes up to the capacity (at least one); without a
buffer it also returns true and removes the head. -/
theorem q_remove_head_truncates (m : Heap) (q : queue_t) (a : Nat) (t : List Nat)
    (hq : IsQueue m q (a :: t)) (buf : List Nat) (h1 : 1 ≤ buf.length)
    (h2 : buf.length < SIZE_MOD) (bufsize : Nat) :
    (∃ r q1, q_remove_head m (some q) (some buf) buf.length = .ok r ∧ r.ret = true ∧
      r.sp = some ((valueAt m a).take (min (valueAt m a).length (buf.length - 1)) ++
        List.replicate (buf.length - min (valueAt m a).length (buf.length - 1)) 0) ∧
      min (valueAt m a).length (buf.length - 1) < buf.length ∧
      r.q = some q1 ∧ IsQueue r.heap q1 t) ∧
    (∃ r q1, q_remove_head m (some q) none bufsize = .ok r ∧ r.ret = true ∧ r.sp = none ∧
      r.writes = [] ∧ r.q = some q1 ∧ IsQueue r.heap q1 t) := by
  constructor
  · obtain ⟨r, q1, hrun, hret, hheap, hrq, hq1, _, hsp⟩ := q_remove_head_buffer hq buf h1 h2
    refine ⟨r, q1, hrun, hret, ?_, by omega, hrq, by rw [hheap]; exact hq1⟩
    rw [hsp]
    congr 2
    rw [Nat.min_comm]
    rcases Nat.le_total (buf.length - 1) (valueAt m a).length with h | h
    · rw [Nat.min_eq_left h]
    · rw [Nat.min_eq_right h, List.take_of_length_le h, List.take_of_length_le (Nat.le_refl _)]
  · obtain ⟨r, q1, hrun, hret, hheap, hrq, hq1, _, _, _, hw, hsp, _⟩ :=
      q_remove_head_spec hq none bufsize
    exact ⟨r, q1, hrun, hret, hsp, hw, hrq, by rw [hheap]; exact hq1⟩

/-- Witness for C9: the head string of length 1 into buffers of capacity 1 and 3. -/
theorem q_remove_head_truncates_witness :
    IsQueue sampleHeap sampleQueue (0 :: [1, 2, 3]) ∧
      ((∃ r q1, q_remove_head sampleHeap (some sampleQueue) (some [9]) [9].length = .ok r ∧
        r.ret = true ∧
        r.sp = some ((valueAt sampleHeap 0).take
            (min (valueAt sampleHeap 0).length ([9].length - 1)) ++
          List.replicate ([9].length - min (valueAt sampleHeap 0).length ([9].length - 1)) 0) ∧
        min (valueAt sampleHeap 0).length ([9].length - 1) < [9].length ∧
        r.q = some q1 ∧ IsQueue r.heap q1 [1, 2, 3]) ∧
      (∃ r q1, q_remove_head sampleHeap (some sampleQueue) none 3 = .ok r ∧ r.ret = true ∧
        r.sp = none ∧ r.writes = [] ∧ r.q = some q1 ∧ IsQueue r.heap q1 [1, 2, 3])) :=
  ⟨by decide,
    q_remove_head_truncates sampleHeap sampleQueue 0 [1, 2, 3] (by decide) [9] (by decide)
      (by decide) 3⟩

theorem q_remove_head_writes_lt {m : Heap} {q : queue_t} {a : Nat} {t : List Nat}
    (hq : IsQueue m q (a :: t)) (buf : List Nat) (h1 : 1 ≤ buf.length)
    (h2 : buf.length < SIZE_MOD) :
    ∃ r, q_remove_head m (some q) (some buf) buf.length = .ok r ∧
      ∀ w ∈ r.writes, w.1 < buf.length := by
  obtain ⟨r, _, hrun, _, _, _, _, hw, _⟩ := q_remove_head_buffer hq buf h1 h2
  refine ⟨r, hrun, ?_⟩
  intro w hmem
  rw [hw, strncpy] at hmem
  rcases List.mem_append.mp hmem with h | h
  · obtain ⟨i, hi, rfl⟩ := List.mem_map.mp h
    have := List.mem_range.mp hi
    show i < buf.length
    omega
  · rw [List.mem_singleton] at h
    subst h
    show buf.length - 1 < buf.length
    omega

/-- C10: with a non-NULL buffer and `bufsize = 0` on the sample queue,
`q_remove_head` returns true after `strncpy` was asked for `SIZE_MOD - 1`
bytes and the terminator was stored at index `SIZE_MOD - 1`: the indices `0`
and `SIZE_MOD - 1` are written although no index is below the capacity `0`. -/
theorem q_remove_head_zero_bufsize :
    ∃ r, q_remove_head sampleHeap (some sampleQueue) (some []) 0 = .ok r ∧ r.ret = true ∧
      r.writes = strncpy [3] (SIZE_MOD - 1) ++ [(SIZE_MOD - 1, 0)] ∧
      (0, 3) ∈ r.writes ∧ (SIZE_MOD - 1, 0) ∈ r.writes ∧ ¬ (SIZE_MOD - 1 < 0) ∧ ¬ (0 < 0) := by
  have hq : IsQueue sampleHeap sampleQueue (0 :: [1, 2, 3]) := by decide
  obtain ⟨r, _, hrun, hret, _, _, _, _, _, _, hw, _⟩ := q_remove_head_spec hq (some []) 0
  have hn : (0 + SIZE_MOD - 1) % SIZE_MOD = SIZE_MOD - 1 := by
    rw [Nat.zero_add]
    exact Nat.mod_eq_of_lt (Nat.sub_lt (by decide) (by decide))
  have hv : valueAt sampleHeap 0 = [3] := rfl
  rw [hn, hv] at hw
  refine ⟨r, hrun, hret, hw, ?_, ?_, Nat.not_lt_zero _, Nat.not_lt_zero _⟩
  · rw [hw]
    exact List.mem_append.mpr (Or.inl (List.mem_map.mpr
      ⟨0, List.mem_range.mpr (Nat.sub_pos_of_lt (by decide)), rfl⟩))
  · rw [hw]
    exact List.mem_append.mpr (Or.inr (List.mem_singleton_self _))

/-! ## Sequences of calls -/

theorem runOps_append :
    ∀ (ops1 ops2 : List Op) (m : Heap) (q : Option queue_t) (rs1 : List Ret) (m1 : Heap)
      (q1 : Option queue_t), runOps ops1 m q = .ok (rs1, m1, q1) →
      runOps (ops1 ++ ops2) m q =
        (runOps ops2 m1 q1 >>= fun rs => Res.ok (rs1 ++ rs.1, rs.2)) := by
  intro ops1
  induction ops1 with
  | nil =>
    intro ops2 m q rs1 m1 q1 h
    simp only [runOps, Res.ok.injEq, Prod.mk.injEq] at h
    obtain ⟨rfl, rfl, rfl⟩ := h
    simp only [List.nil_append]
    cases runOps ops2 m q <;> rfl
  | cons op ops ih =>
    intro ops2 m q rs1 m1 q1 h
    rw [List.cons_append]
    simp only [runOps] at h ⊢
    cases hop : op.exec m q with
    | fault => rw [hop] at h; cases h
    | outOfFuel => rw [hop] at h; cases h
    | ok r =>
      rw [hop] at h
      simp only [Res.ok_bind] at h ⊢
      cases hrest : runOps ops r.2.1 r.2.2 with
      | fault => rw [hrest] at h; cases h
      | outOfFuel => rw [hrest] at h; cases h
      | ok rs =>
        rw [hrest] at h
        simp only [Res.ok_bind, Res.ok.injEq, Prod.mk.injEq] at h
        obtain ⟨rfl, h2⟩ := h
        rw [ih ops2 r.2.1 r.2.2 rs.1 m1 q1 (by rw [hrest, ← h2])]
        cases runOps ops2 m1 q1 <;> rfl

theorem exec_insertHead {m : Heap} {q : queue_t} {xs : List Nat} (hq : IsQueue m q xs)
    (s : CStr) :
    ∃ m1 q1, (Op.insertHead s).exec m (some q) = .ok ({ ret := true, sp := none }, m1, some q1) ∧
      IsQueue m1 q1 (m.length :: xs) := by
  obtain ⟨q1, hrun, hq1, _⟩ := q_insert_head_spec hq s
  refine ⟨_, q1, ?_, hq1⟩
  simp only [Op.exec, hrun]

theorem exec_insertTail {m : Heap} {q : queue_t} {xs : List Nat} (hq : IsQueue m q xs)
    (s : CStr) :
    ∃ m1 q1, (Op.insertTail s).exec m (some q) = .ok ({ ret := true, sp := none }, m1, some q1) ∧
      IsQueue m1 q1 (xs ++ [m.length]) ∧ valueAt m1 m.length = s ∧
      (∀ b, b ≠ m.length → valueAt m1 b = valueAt m b) := by
  obtain ⟨m1, q1, hrun, hq1, _, hv, hold, _⟩ := q_insert_tail_spec hq s
  refine ⟨m1, q1, ?_, hq1, hv, hold⟩
  simp only [Op.exec, hrun, Res.ok_bind]

theorem removeCount_cons (op : Op) (ops : List Op) (r : Ret) (rets : List Ret) :
    removeCount (op :: ops) (r :: rets) =
      removeCount ops rets + if (!op.isInsert && r.ret) = true then 1 else 0 := by
  unfold removeCount
  rw [List.zip_cons_cons, List.countP_cons]

theorem insertCount_cons (op : Op) (ops : List Op) :
    insertCount (op :: ops) = insertCount ops + if op.isInsert = true then 1 else 0 := by
  unfold insertCount
  rw [List.countP_cons]

theorem runOps_size :
    ∀ (ops : List Op) (m : Heap) (q : queue_t) (xs : List Nat), IsQueue m q xs →
      ∃ rets m1 q1 ys, runOps ops m (some q) = .ok (rets, m1, some q1) ∧
        rets.length = ops.length ∧ IsQueue m1 q1 ys ∧
        ys.length + removeCount ops rets = xs.length + insertCount ops := by
  intro ops
  induction ops with
  | nil =>
    intro m q xs hq
    exact ⟨[], m, q, xs, rfl, rfl, hq, rfl⟩
  | cons op ops ih =>
    intro m q xs hq
    cases op with
    | insertHead s =>
      obtain ⟨m1, q1, hex, hq1⟩ := exec_insertHead hq s
      obtain ⟨rets, m2, q2, ys, hrun, hlen, hq2, hcount⟩ := ih m1 q1 _ hq1
      refine ⟨Ret.mk true none :: rets, m2, q2, ys, ?_, by simp [hlen], hq2, ?_⟩
      · simp only [runOps, hex, Res.ok_bind, hrun]
      · rw [removeCount_cons, insertCount_cons]
        simp only [Op.isInsert, List.length_cons] at hcount ⊢
        simp
        omega
    | insertTail s =>
      obtain ⟨m1, q1, hex, hq1, _⟩ := exec_insertTail hq s
      obtain ⟨rets, m2, q2, ys, hrun, hlen, hq2, hcount⟩ := ih m1 q1 _ hq1
      refine ⟨Ret.mk true none :: rets, m2, q2, ys, ?_, by simp [hlen], hq2, ?_⟩
      · simp only [runOps, hex, Res.ok_bind, hrun]
      · rw [removeCount_cons, insertCount_cons]
        simp only [Op.isInsert, List.length_append, List.length_singleton] at hcount ⊢
        simp
        omega
    | removeHead sp bufsize =>
      cases xs with
      | nil =>
        obtain ⟨rets, m2, q2, ys, hrun, hlen, hq2, hcount⟩ := ih m q [] hq
        refine ⟨{ ret := false, sp := sp } :: rets, m2, q2, ys, ?_, by simp [hlen], hq2, ?_⟩
        · simp only [runOps, Op.exec, q_remove_head_empty hq.2.2, Res.ok_bind, hrun]
        · rw [removeCount_cons, insertCount_cons]
          simp only [Op.isInsert, List.length_nil] at hcount ⊢
          simp
          omega
      | cons a t =>
        obtain ⟨r, q1, hrem, hret, hheap, hrq, hq1, _⟩ := q_remove_head_spec hq sp bufsize
        obtain ⟨rets, m2, q2, ys, hrun, hlen, hq2, hcount⟩ := ih _ q1 t hq1
        refine ⟨{ ret := r.ret, sp := r.sp } :: rets, m2, q2, ys, ?_, by simp [hlen], hq2, ?_⟩
        · simp only [runOps, Op.exec, hrem, Res.ok_bind, hheap, hrq, hrun]
        · rw [removeCount_cons, insertCount_cons]
          simp only [Op.isInsert, hret, List.length_cons] at hcount ⊢
          simp
          omega

theorem to_int_of_lt {n : Nat} (h : n < 2 ^ 31) : to_int n = (n : Int) := by
  unfold to_int
  rw [Nat.mod_eq_of_lt (by omega)]
  push_cast
  omega

theorem to_int_wrap : to_int 2147483648 = -2147483648 := by
  unfold to_int
  norm_num

theorem insertCount_replicate (n : Nat) (s : CStr) :
    insertCount (List.replicate n (Op.insertHead s)) = n := by
  unfold insertCount
  rw [List.countP_replicate]
  simp [Op.isInsert]

theorem removeCount_inserts (ops : List Op) (rets : List Ret)
    (h : ∀ op ∈ ops, op.isInsert = true) : removeCount ops rets = 0 := by
  unfold removeCount
  rw [List.countP_eq_zero]
  intro p hp
  have := h p.1 (List.of_mem_zip hp).1
  simp [this]

theorem runOps_insertTails :
    ∀ (vs : List CStr) (m : Heap) (q : queue_t) (xs : List Nat), IsQueue m q xs →
      ∃ m1 q1 ys,
        runOps (vs.map Op.insertTail) m (some q) =
          .ok (vs.map (fun _ => Ret.mk true none), m1, some q1) ∧
        IsQueue m1 q1 (xs ++ ys) ∧ ys.map (valueAt m1) = vs ∧
        (∀ b ∈ xs, valueAt m1 b = valueAt m b) := by
  intro vs
  induction vs with
  | nil =>
    intro m q xs hq
    exact ⟨m, q, [], rfl, by rw [List.append_nil]; exact hq, rfl, fun _ _ => rfl⟩
  | cons v vs ih =>
    intro m q xs hq
    obtain ⟨m1, q1, hex, hq1, hv, hold⟩ := exec_insertTail hq v
    obtain ⟨m2, q2, ys, hrun, hq2, hvals, hold2⟩ := ih m1 q1 _ hq1
    refine ⟨m2, q2, m.length :: ys, ?_, ?_, ?_, ?_⟩
    · simp only [List.map_cons, runOps, hex, Res.ok_bind, hrun]
    · rw [List.append_assoc] at hq2
      exact hq2
    · rw [List.map_cons, hvals, hold2 _ (by simp), hv]
    · intro b hb
      rw [hold2 b (by simp [hb]), hold b (Nat.ne_of_lt (Seg_lt hq.1 hb))]

theorem runOps_removeHeads :
    ∀ (xs : List Nat) (m : Heap) (q : queue_t) (bufs : List (List Nat)), IsQueue m q xs →
      List.Forall₂ (fun v b => v.length < b.length ∧ b.length < SIZE_MOD)
        (xs.map (valueAt m)) bufs →
      ∃ m1,
        runOps (bufs.map fun b => Op.removeHead (some b) b.length) m (some q) =
          .ok (List.zipWith
              (fun v b => Ret.mk true (some (v ++ List.replicate (b.length - v.length) 0)))
              (xs.map (valueAt m)) bufs,
            m1, some { head := none, tail := none, size := 0 }) := by
  intro xs
  induction xs with
  | nil =>
    intro m q bufs hq hcap
    have hb : bufs = [] := by
      cases hcap
      rfl
    subst hb
    refine ⟨m, ?_⟩
    rw [IsQueue_record hq]
    rfl
  | cons a t ih =>
    intro m q bufs hq hcap
    rw [List.map_cons, List.forall₂_cons_left_iff] at hcap
    obtain ⟨b, bs, ⟨hb1, hb2⟩, hrest, rfl⟩ := hcap
    obtain ⟨r, q1, hrem, hret, hheap, hrq, hq1, _, hsp⟩ :=
      q_remove_head_buffer hq b (by omega) hb2
    have hat : a ∉ t := (List.nodup_cons.mp (Chain_nodup hq.1)).1
    have hmap : t.map (valueAt (free m a)) = t.map (valueAt m) := by
      apply List.map_congr_left
      intro x hx
      apply valueAt_free_ne
      rintro rfl
      exact hat hx
    obtain ⟨m1, hrun⟩ := ih (free m a) q1 bs hq1 (by rw [hmap]; exact hrest)
    refine ⟨m1, ?_⟩
    simp only [List.map_cons, runOps, Op.exec, hrem, Res.ok_bind, hheap, hrq, hrun, hret, hsp,
      hmap, List.zipWith_cons_cons]
    rw [List.take_of_length_le (by omega), Nat.min_eq_left (by omega)]

/-- C5: `q_insert_tail` of `v1 .. vn` on a newly created queue followed by `n`
calls of `q_remove_head`, each with a buffer of capacity above the length of
the value due, runs without a fault; every call returns true, the i-th
removal leaves `vi` and then NUL bytes in its buffer, and the queue ends empty
(`head` and `tail` `NULL`, `size` 0). -/
theorem fifo_order (vs : List CStr) (bufs : List (List Nat)) (m : Heap)
    (hcap : List.Forall₂ (fun v b => v.length < b.length ∧ b.length < SIZE_MOD) vs bufs) :
    ∃ m1,
      runOps (vs.map Op.insertTail ++ bufs.map fun b => Op.removeHead (some b) b.length) m
          (q_new true) =
        .ok (vs.map (fun _ => Ret.mk true none) ++
            List.zipWith
              (fun v b => Ret.mk true (some (v ++ List.replicate (b.length - v.length) 0)))
              vs bufs,
          m1, some { head := none, tail := none, size := 0 }) := by
  obtain ⟨m1, q1, ys, hins, hq1, hvals, _⟩ :=
    runOps_insertTails vs m { head := none, tail := none, size := 0 } [] ⟨rfl, rfl, rfl⟩
  rw [List.nil_append] at hq1
  obtain ⟨m2, hrem⟩ := runOps_removeHeads ys m1 q1 bufs hq1 (by rw [hvals]; exact hcap)
  refine ⟨m2, ?_⟩
  have hnew : q_new true = some { head := none, tail := none, size := 0 } := rfl
  rw [hnew, runOps_append _ _ _ _ _ _ _ hins, hrem, hvals]
  rfl

/-- Witness for C5: two values, the second buffer larger than needed. -/
theorem fifo_order_witness :
    List.Forall₂ (fun v b => v.length < b.length ∧ b.length < SIZE_MOD)
        [[1, 2], [3]] ([[9, 9, 9], [9, 9, 9]] : List (List Nat)) ∧
      ∃ m1,
        runOps ([[1, 2], [3]].map Op.insertTail ++
              [[9, 9, 9], [9, 9, 9]].map fun b => Op.removeHead (some b) b.length)
            sampleHeap (q_new true) =
          .ok ([[1, 2], [3]].map (fun _ => Ret.mk true none) ++
              List.zipWith
                (fun v b => Ret.mk true (some (v ++ List.replicate (b.length - v.length) 0)))
                [[1, 2], [3]] [[9, 9, 9], [9, 9, 9]],
            m1, some { head := none, tail := none, size := 0 }) :=
  ⟨List.Forall₂.cons ⟨by decide, by decide⟩
      (List.Forall₂.cons ⟨by decide, by decide⟩ List.Forall₂.nil),
    fifo_order [[1, 2], [3]] [[9, 9, 9], [9, 9, 9]] sampleHeap
      (List.Forall₂.cons ⟨by decide, by decide⟩
        (List.Forall₂.cons ⟨by decide, by decide⟩ List.Forall₂.nil))⟩

/-! ## Failure cases -/

/-- C11: on a valid queue `q_remove_head` returns false exactly when the queue
is empty, and on an absent queue it returns false; whenever it returns false
the heap, the queue record (`head`, `tail`, `size`) and the buffer are as
before and nothing was written through `sp`. On an absent or empty queue this
holds for every `sp` and `bufsize`; on a queue with elements the call is made
with no buffer or with a buffer of at least `bufsize >= 1` bytes, and it
writes only inside the buffer. -/
theorem q_remove_head_failure (m : Heap) (q : queue_t) (xs : List Nat)
    (hq : IsQueue m q xs) (sp : Option (List Nat)) (bufsize : Nat)
    (hbuf : xs ≠ [] → BufferOk sp bufsize) :
    (∃ r, q_remove_head m (some q) sp bufsize = .ok r ∧ (r.ret = false ↔ xs = []) ∧
      (r.ret = false → r.heap = m ∧ r.q = some q ∧ r.sp = sp ∧ r.writes = []) ∧
      (∀ buf, sp = some buf → ∀ w ∈ r.writes, w.1 < buf.length)) ∧
    q_remove_head m none sp bufsize =
      .ok { ret := false, heap := m, q := none, writes := [], sp := sp } := by
  refine ⟨?_, rfl⟩
  cases xs with
  | nil =>
    exact ⟨_, q_remove_head_empty hq.2.2 sp bufsize, by simp, fun _ => ⟨rfl, rfl, rfl, rfl⟩,
      fun _ _ w hw => absurd hw (List.not_mem_nil w)⟩
  | cons a t =>
    obtain ⟨r, _, hrun, hret, _, _, _, hin⟩ :=
      q_remove_head_inside hq sp bufsize (hbuf (List.cons_ne_nil a t))
    refine ⟨r, hrun, by simp [hret], ?_, hin⟩
    intro h
    rw [hret] at h
    cases h

/-- Witness for C11 on an empty queue. -/
theorem q_remove_head_failure_witness :
    IsQueue sampleHeap { head := none, tail := none, size := 0 } [] ∧
      BufferOk (some [9, 9]) 2 ∧
      ((∃ r, q_remove_head sampleHeap (some { head := none, tail := none, size := 0 })
            (some [9, 9]) 2 = .ok r ∧
          (r.ret = false ↔ ([] : List Nat) = []) ∧
          (r.ret = false → r.heap = sampleHeap ∧
            r.q = some { head := none, tail := none, size := 0 } ∧ r.sp = some [9, 9] ∧
            r.writes = []) ∧
          (∀ buf, some [9, 9] = some buf → ∀ w ∈ r.writes, w.1 < buf.length)) ∧
        q_remove_head sampleHeap none (some [9, 9]) 2 =
          .ok { ret := false, heap := sampleHeap, q := none, writes := [],
                sp := some [9, 9] }) :=
  ⟨by decide, by decide,
    q_remove_head_failure sampleHeap { head := none, tail := none, size := 0 } []
      (by decide) (some [9, 9]) 2 (fun _ => by decide)⟩

theorem valueAt_push_dead (m : Heap) (a : Nat) : valueAt (m ++ [none]) a = valueAt m a := by
  unfold valueAt
  rw [cell_append]
  by_cases h : a = m.length
  · subst h
    have : cell m m.length = none := by
      unfold cell
      rw [List.getElem?_eq_none (Nat.le_refl _)]
      rfl
    rw [if_pos rfl, this]
  · rw [if_neg h]

/-- C12: on a valid queue `q_insert_head` and `q_insert_tail` return false
exactly when the allocation of the node or of the value fails, and on an
absent queue they return false; whenever they return false the queue record
(`head`, `tail`, `size`) is the one of before, it still describes the same
chain, and every stored string is as before. -/
theorem insert_failure_atomic (m : Heap) (q : queue_t) (xs : List Nat) (hq : IsQueue m q xs)
    (s : CStr) (okNode okValue : Bool) :
    (∃ ret m1 q1, q_insert_head m (some q) s okNode okValue = (ret, m1, q1) ∧
      (ret = false ↔ (okNode = false ∨ okValue = false)) ∧
      (ret = false → q1 = some q ∧ IsQueue m1 q xs ∧ ∀ a, valueAt m1 a = valueAt m a)) ∧
    (∃ ret m1 q1, q_insert_tail m (some q) s okNode okValue = .ok (ret, m1, q1) ∧
      (ret = false ↔ (okNode = false ∨ okValue = false)) ∧
      (ret = false → q1 = some q ∧ IsQueue m1 q xs ∧ ∀ a, valueAt m1 a = valueAt m a)) ∧
    q_insert_head m none s okNode okValue = (false, m, none) ∧
    q_insert_tail m none s okNode okValue = .ok (false, m, none) := by
  refine ⟨?_, ?_, rfl, rfl⟩
  · cases okNode with
    | false => exact ⟨false, m, some q, rfl, by simp, fun _ => ⟨rfl, hq, fun _ => rfl⟩⟩
    | true =>
      cases okValue with
      | false =>
        exact ⟨false, m ++ [none], some q, rfl, by simp,
          fun _ => ⟨rfl, IsQueue_push hq _, valueAt_push_dead m⟩⟩
      | true =>
        obtain ⟨q1, hrun, _⟩ := q_insert_head_spec hq s
        exact ⟨true, _, some q1, hrun, by simp, fun h => by cases h⟩
  · cases okNode with
    | false => exact ⟨false, m, some q, rfl, by simp, fun _ => ⟨rfl, hq, fun _ => rfl⟩⟩
    | true =>
      cases okValue with
      | false =>
        exact ⟨false, m ++ [none], some q, rfl, by simp,
          fun _ => ⟨rfl, IsQueue_push hq _, valueAt_push_dead m⟩⟩
      | true =>
        obtain ⟨m1, q1, hrun, _⟩ := q_insert_tail_spec hq s
        exact ⟨true, m1, some q1, hrun, by simp, fun h => by cases h⟩

/-- Witness for C12: the value allocation fails on the sample queue. -/
theorem insert_failure_atomic_witness :
    IsQueue sampleHeap sampleQueue [0, 1, 2, 3] ∧
      ((∃ ret m1 q1, q_insert_head sampleHeap (some sampleQueue) [7] true false =
            (ret, m1, q1) ∧
          (ret = false ↔ (true = false ∨ false = false)) ∧
          (ret = false → q1 = some sampleQueue ∧ IsQueue m1 sampleQueue [0, 1, 2, 3] ∧
            ∀ a, valueAt m1 a = valueAt sampleHeap a)) ∧
        (∃ ret m1 q1, q_insert_tail sampleHeap (some sampleQueue) [7] true false =
            .ok (ret, m1, q1) ∧
          (ret = false ↔ (true = false ∨ false = false)) ∧
          (ret = false → q1 = some sampleQueue ∧ IsQueue m1 sampleQueue [0, 1, 2, 3] ∧
            ∀ a, valueAt m1 a = valueAt sampleHeap a)) ∧
        q_insert_head sampleHeap none [7] true false = (false, sampleHeap, none) ∧
        q_insert_tail sampleHeap none [7] true false = .ok (false, sampleHeap, none)) :=
  ⟨by decide,
    insert_failure_atomic sampleHeap sampleQueue [0, 1, 2, 3] (by decide) [7] true false⟩

/-! ## The natural comparator -/

theorem strnatcmp_go_anti :
    ∀ (fuel : Nat) (a b : CStr), strnatcmp_go fuel a b = -strnatcmp_go fuel b a := by
  intro fuel
  induction fuel with
  | zero => intro a b; simp [strnatcmp_go]
  | succ f ih =>
    intro a b
    cases a with
    | nil => cases b <;> simp [strnatcmp_go]
    | cons ca a =>
      cases b with
      | nil => simp [strnatcmp_go]
      | cons cb b =>
        simp only [strnatcmp_go]
        rw [Bool.and_comm (isDigit cb)]
        by_cases hd : (isDigit ca && isDigit cb) = true
        · have h1 := ih ((ca :: a).drop (digitRun (ca :: a)).length)
            ((cb :: b).drop (digitRun (cb :: b)).length)
          simp only [hd, if_true]
          split_ifs <;> omega
        · have h1 := ih a b
          simp only [hd, Bool.false_eq_true, if_false]
          split_ifs <;> omega

theorem digitRun_cons_length {c : Nat} (h : isDigit c = true) (s : CStr) :
    (digitRun (c :: s)).length = (digitRun s).length + 1 := by
  unfold digitRun
  rw [List.takeWhile_cons, if_pos h, List.length_cons]

theorem strnatcmp_go_fuel :
    ∀ (f g : Nat) (a b : CStr), a.length < f → a.length < g →
      strnatcmp_go f a b = strnatcmp_go g a b := by
  intro f
  induction f with
  | zero => intro g a b h; omega
  | succ f ih =>
    intro g a b hf hg
    obtain ⟨g, rfl⟩ : ∃ k, g = k + 1 := ⟨g - 1, by omega⟩
    cases a with
    | nil => cases b <;> simp [strnatcmp_go]
    | cons ca a =>
      cases b with
      | nil => simp [strnatcmp_go]
      | cons cb b =>
        simp only [List.length_cons] at hf hg
        simp only [strnatcmp_go]
        by_cases hd : (isDigit ca && isDigit cb) = true
        · have hca : isDigit ca = true := by
            rw [Bool.and_eq_true] at hd
            exact hd.1
          have hlen : ((ca :: a).drop (digitRun (ca :: a)).length).length ≤ a.length := by
            rw [digitRun_cons_length hca, List.drop_succ_cons, List.length_drop]
            omega
          simp only [hd, if_true]
          rw [ih g _ _ (by omega) (by omega)]
        · simp only [hd, Bool.false_eq_true, if_false]
          rw [ih g a b (by omega) (by omega)]

theorem isDigit_iff (c : Nat) : isDigit c = true ↔ 48 ≤ c ∧ c ≤ 57 := by
  simp [isDigit]

theorem run_cmp_nonpos (va vb la lb : Nat) (x : Int) :
    (if va < vb then (-1 : Int) else if vb < va then 1 else if lb < la then -1
      else if la < lb then 1 else x) ≤ 0 ↔
      (va < vb ∨ (va = vb ∧ (lb < la ∨ (la = lb ∧ x ≤ 0)))) := by
  split_ifs <;> omega

theorem char_cmp_nonpos (ca cb : Nat) (x : Int) :
    (if ca < cb then (-1 : Int) else if cb < ca then 1 else x) ≤ 0 ↔
      (ca < cb ∨ (ca = cb ∧ x ≤ 0)) := by
  split_ifs <;> omega

theorem nonpos_cases {x y z : Int} (h : x ≤ 0 → y ≤ 0 → z ≤ 0) : 0 < x ∨ 0 < y ∨ z ≤ 0 := by
  by_cases hx : x ≤ 0
  · by_cases hy : y ≤ 0
    · exact Or.inr (Or.inr (h hx hy))
    · exact Or.inr (Or.inl (by omega))
  · exact Or.inl (by omega)

theorem strnatcmp_go_trans :
    ∀ (fuel : Nat) (a b c : CStr), strnatcmp_go fuel a b ≤ 0 → strnatcmp_go fuel b c ≤ 0 →
      strnatcmp_go fuel a c ≤ 0 := by
  intro fuel
  induction fuel with
  | zero => intro a b c _ _; simp [strnatcmp_go]
  | succ f ih =>
    intro a b c h1 h2
    cases a with
    | nil => cases c <;> simp [strnatcmp_go]
    | cons ca a =>
      cases b with
      | nil => simp [strnatcmp_go] at h1
      | cons cb b =>
        cases c with
        | nil => simp [strnatcmp_go] at h2
        | cons cc c =>
          simp only [strnatcmp_go] at h1 h2 ⊢
          have ea := isDigit_iff ca
          have eb := isDigit_iff cb
          have ec := isDigit_iff cc
          have i1 := nonpos_cases (ih a b c)
          have i2 := nonpos_cases (ih ((ca :: a).drop (digitRun (ca :: a)).length)
            ((cb :: b).drop (digitRun (cb :: b)).length)
            ((cc :: c).drop (digitRun (cc :: c)).length))
          cases ha : isDigit ca <;> cases hb : isDigit cb <;> cases hc : isDigit cc <;>
            simp only [ha, hb, hc, Bool.and_self, Bool.and_true, Bool.true_and, Bool.and_false,
              Bool.false_and, if_true, if_false, Bool.false_eq_true, false_iff, true_iff,
              run_cmp_nonpos, char_cmp_nonpos] at h1 h2 ea eb ec ⊢ <;>
            omega

theorem run_cmp_eq_zero (va vb la lb : Nat) (x : Int) :
    (if va < vb then (-1 : Int) else if vb < va then 1 else if lb < la then -1
      else if la < lb then 1 else x) = 0 ↔ (va = vb ∧ la = lb ∧ x = 0) := by
  split_ifs <;> first | omega | (simp; omega)

theorem char_cmp_eq_zero (ca cb : Nat) (x : Int) :
    (if ca < cb then (-1 : Int) else if cb < ca then 1 else x) = 0 ↔ (ca = cb ∧ x = 0) := by
  split_ifs <;> first | omega | (simp; omega)

theorem foldl_digits_inj :
    ∀ (r1 r2 : CStr) (n1 n2 : Nat), r1.length = r2.length →
      (∀ c ∈ r1, isDigit c = true) → (∀ c ∈ r2, isDigit c = true) →
      r1.foldl (fun n c => 10 * n + (c - 48)) n1 = r2.foldl (fun n c => 10 * n + (c - 48)) n2 →
      n1 = n2 ∧ r1 = r2 := by
  intro r1
  induction r1 with
  | nil =>
    intro r2 n1 n2 hl _ _ h
    have : r2 = [] := List.length_eq_zero.mp hl.symm
    subst this
    exact ⟨h, rfl⟩
  | cons d1 t1 ih =>
    intro r2 n1 n2 hl h1 h2 h
    cases r2 with
    | nil => simp at hl
    | cons d2 t2 =>
      simp only [List.foldl_cons] at h
      obtain ⟨hn, ht⟩ := ih t2 _ _ (by simpa using hl)
        (fun c hc => h1 c (List.mem_cons_of_mem _ hc))
        (fun c hc => h2 c (List.mem_cons_of_mem _ hc)) h
      have e1 := (isDigit_iff d1).mp (h1 d1 (List.mem_cons_self _ _))
      have e2 := (isDigit_iff d2).mp (h2 d2 (List.mem_cons_self _ _))
      have hd : d1 = d2 := by omega
      have hn' : n1 = n2 := by omega
      exact ⟨hn', by rw [hd, ht]⟩

theorem digitRun_digits (s : CStr) : ∀ c ∈ digitRun s, isDigit c = true := by
  intro c hc
  exact (List.mem_takeWhile_imp hc)

theorem digitRun_append_drop (s : CStr) : digitRun s ++ s.drop (digitRun s).length = s := by
  have hp : digitRun s <+: s := List.takeWhile_prefix _
  conv_rhs => rw [← List.take_append_drop (digitRun s).length s]
  rw [← List.prefix_iff_eq_take.mp hp]

theorem strnatcmp_go_zero :
    ∀ (fuel : Nat) (a b : CStr), a.length < fuel → strnatcmp_go fuel a b = 0 → a = b := by
  intro fuel
  induction fuel with
  | zero => intro a b h; omega
  | succ f ih =>
    intro a b hf h
    cases a with
    | nil =>
      cases b with
      | nil => rfl
      | cons cb b => simp [strnatcmp_go] at h
    | cons ca a =>
      cases b with
      | nil => simp [strnatcmp_go] at h
      | cons cb b =>
        simp only [List.length_cons] at hf
        simp only [strnatcmp_go] at h
        by_cases hd : (isDigit ca && isDigit cb) = true
        · have hca : isDigit ca = true := by
            rw [Bool.and_eq_true] at hd
            exact hd.1
          simp only [hd, if_true, run_cmp_eq_zero] at h
          obtain ⟨hv, hl, hx⟩ := h
          have hlen : ((ca :: a).drop (digitRun (ca :: a)).length).length < f := by
            rw [digitRun_cons_length hca, List.drop_succ_cons, List.length_drop]
            omega
          have hrest := ih _ _ hlen hx
          have hrun : digitRun (ca :: a) = digitRun (cb :: b) :=
            (foldl_digits_inj _ _ 0 0 hl (digitRun_digits _) (digitRun_digits _) hv).2
          rw [← digitRun_append_drop (ca :: a), ← digitRun_append_drop (cb :: b), hrest, hrun]
        · simp only [hd, Bool.false_eq_true, if_false, char_cmp_eq_zero] at h
          obtain ⟨hc, hx⟩ := h
          rw [hc, ih a b (by omega) hx]

theorem strnatcmp_neg (x y : CStr) : strnatcmp x y = -strnatcmp y x := by
  unfold strnatcmp
  rw [strnatcmp_go_anti, Nat.add_comm x.length]

theorem strnatcmp_sign (x y : CStr) : Int.sign (strnatcmp x y) = -Int.sign (strnatcmp y x) := by
  rw [strnatcmp_neg x y, Int.sign_neg]

theorem strnatcmp_zero (x y : CStr) (h : strnatcmp x y = 0) : x = y :=
  strnatcmp_go_zero _ x y (by omega) h

theorem strnatcmp_eq_go (x y : CStr) (f : Nat) (h : x.length < f) :
    strnatcmp x y = strnatcmp_go f x y :=
  strnatcmp_go_fuel _ f x y (by omega) h

theorem strnatcmp_trans (x y z : CStr) (h1 : strnatcmp x y ≤ 0) (h2 : strnatcmp y z ≤ 0) :
    strnatcmp x z ≤ 0 := by
  rw [strnatcmp_eq_go x y (x.length + y.length + z.length + 1) (by omega)] at h1
  rw [strnatcmp_eq_go y z (x.length + y.length + z.length + 1) (by omega)] at h2
  rw [strnatcmp_eq_go x z (x.length + y.length + z.length + 1) (by omega)]
  exact strnatcmp_go_trans _ x y z h1 h2

/-- C16: the natural comparator is antisymmetric in sign, for all strings `x`
and `y` the sign of `strnatcmp x y` is the opposite of the sign of
`strnatcmp y x`, and `strnatcmp x x` is zero. -/
theorem strnatcmp_antisymmetric (x y : CStr) :
    Int.sign (strnatcmp x y) = -Int.sign (strnatcmp y x) ∧ strnatcmp x x = 0 := by
  constructor
  · unfold strnatcmp
    rw [strnatcmp_go_anti, Int.sign_neg, Nat.add_comm x.length]
  · have h := strnatcmp_go_anti (x.length + x.length + 1) x x
    unfold strnatcmp
    omega

/-! ## The merge step -/

theorem Res.bind_assoc {α β γ : Type} (r : Res α) (f : α → Res β) (g : β → Res γ) :
    (r >>= f >>= g) = (r >>= fun a => f a >>= g) := by
  cases r <;> rfl

theorem merge_loop_succ (cmp : CStr → CStr → Int) (fuel : Nat) (s : MergeState) (a b : Nat)
    (hl : s.left = some a) (hr : s.right = some b) :
    merge_loop cmp (fuel + 1) s = (merge_step cmp s >>= merge_loop cmp fuel) := by
  obtain ⟨heap, head, merge, left, right⟩ := s
  simp only at hl hr
  subst hl hr
  simp only [merge_loop, merge_step]
  cases load heap (some a) with
  | fault => rfl
  | outOfFuel => rfl
  | ok lc =>
    cases load heap (some b) with
    | fault => rfl
    | outOfFuel => rfl
    | ok rc =>
      simp only [Res.ok_bind]
      by_cases hc : cmp lc.value rc.value < 0
      · simp only [hc, if_true]
        cases merge with
        | none => rfl
        | some z =>
          simp only [Res.bind_assoc, Res.ok_bind]
      · simp only [hc, if_false]
        cases merge with
        | none => rfl
        | some z =>
          simp only [Res.bind_assoc, Res.ok_bind]

/-- C13, counterexample: the two one-cell chains of `tieHalves` hold the same
string, so the comparator (the length order or the natural comparator)
returns zero, a non-positive result, on the two fronts; the merge step links
the right front, cell 1, not the left front, cell 0, and the sort of the chain
0, 1 of `tieHeap` ends as the chain 1, 0. -/
theorem merge_step_tie_takes_right :
    Chain tieHalves (some 0) [0] ∧ Chain tieHalves (some 1) [1] ∧
      lenCmp (valueAt tieHalves 0) (valueAt tieHalves 1) ≤ 0 ∧
      strnatcmp (valueAt tieHalves 0) (valueAt tieHalves 1) ≤ 0 ∧
      merge_step lenCmp
          { heap := tieHalves, head := some 0, merge := none, left := some 0, right := some 1 } =
        .ok { heap := tieHalves, head := some 1, merge := some 1, left := some 0,
              right := none } ∧
      merge_step strnatcmp
          { heap := tieHalves, head := some 0, merge := none, left := some 0, right := some 1 } =
        .ok { heap := tieHalves, head := some 1, merge := some 1, left := some 0,
              right := none } ∧
      (some 1 : Ptr) ≠ some 0 ∧
      divide_and_conquer strnatcmp 3 tieHeap (some 0) =
        .ok ([some { value := [97], next := none }, some { value := [97], next := some 0 }],
          some 1) := by
  decide

/-- C13, amended: in the merge step, entered with live fronts `a` (left) and
`b` (right), the left front is linked next exactly when the comparator returns
a negative result for (left front, right front); when it returns zero or a
positive result the right front is linked next. The linked cell becomes
`merge`; it is the new `head` when nothing was linked before, and the `next`
of the previous `merge` otherwise. -/
theorem merge_step_choice (cmp : CStr → CStr → Int) (m : Heap) (head merge : Ptr)
    (a b : Nat) (la rb : list_ele_t) (hla : cell m a = some la) (hrb : cell m b = some rb)
    (hm : merge = none ∨ ∃ z c, merge = some z ∧ cell m z = some c ∧ z ≠ a ∧ z ≠ b) :
    ∃ s1,
      merge_step cmp
          { heap := m, head := head, merge := merge, left := some a, right := some b } =
        .ok s1 ∧
      (cmp la.value rb.value < 0 →
        s1.merge = some a ∧ s1.left = la.next ∧ s1.right = some b) ∧
      (0 ≤ cmp la.value rb.value →
        s1.merge = some b ∧ s1.left = some a ∧ s1.right = rb.next) ∧
      (merge = none → s1.head = s1.merge ∧ s1.heap = m) ∧
      (∀ z, merge = some z →
        s1.head = head ∧ ∃ c, cell s1.heap z = some c ∧ c.next = s1.merge) := by
  by_cases hc : cmp la.value rb.value < 0
  · rcases hm with hm | ⟨z, c, hm, hcz, hza, hzb⟩
    · subst hm
      refine ⟨MergeState.mk m (some a) (some a) la.next (some b), ?_,
        fun _ => ⟨rfl, rfl, rfl⟩, fun h => by omega, fun _ => ⟨rfl, rfl⟩,
        fun z h => by cases h⟩
      simp only [merge_step, load_some hla, load_some hrb, Res.ok_bind, if_pos hc]
    · subst hm
      have hla1 : cell (m.set z (some (list_ele_t.mk c.value (some a)))) a = some la := by
        rw [cell_set_ne m hza]; exact hla
      refine ⟨MergeState.mk (m.set z (some (list_ele_t.mk c.value (some a)))) head (some a)
        la.next (some b), ?_, fun _ => ⟨rfl, rfl, rfl⟩, fun h => by omega,
        (fun h => by cases h), ?_⟩
      · simp only [merge_step, load_some hla, load_some hrb, Res.ok_bind, if_pos hc,
          store_next_some hcz, load_some (cell_set_self hcz _), load_some hla1]
      · intro z1 hz1
        cases hz1
        exact ⟨rfl, _, cell_set_self hcz _, rfl⟩
  · rcases hm with hm | ⟨z, c, hm, hcz, hza, hzb⟩
    · subst hm
      refine ⟨MergeState.mk m (some b) (some b) (some a) rb.next, ?_,
        fun h => absurd h hc, fun _ => ⟨rfl, rfl, rfl⟩, fun _ => ⟨rfl, rfl⟩,
        fun z h => by cases h⟩
      simp only [merge_step, load_some hla, load_some hrb, Res.ok_bind, if_neg hc]
    · subst hm
      have hrb1 : cell (m.set z (some (list_ele_t.mk c.value (some b)))) b = some rb := by
        rw [cell_set_ne m hzb]; exact hrb
      refine ⟨MergeState.mk (m.set z (some (list_ele_t.mk c.value (some b)))) head (some b)
        (some a) rb.next, ?_, fun h => absurd h hc, fun _ => ⟨rfl, rfl, rfl⟩,
        (fun h => by cases h), ?_⟩
      · simp only [merge_step, load_some hla, load_some hrb, Res.ok_bind, if_neg hc,
          store_next_some hcz, load_some (cell_set_self hcz _), load_some hrb1]
      · intro z1 hz1
        cases hz1
        exact ⟨rfl, _, cell_set_self hcz _, rfl⟩

/-- Witness for C13, amended: the first merge step on the halves of the
sample queue after sorting, fronts 2 and 3. -/
theorem merge_step_choice_witness :
    cell sampleHeap 2 = some { value := [2], next := some 3 } ∧
      cell sampleHeap 3 = some { value := [], next := none } ∧
      ∃ s1,
        merge_step lenCmp
            { heap := sampleHeap, head := some 2, merge := none, left := some 2,
              right := some 3 } =
          .ok s1 ∧
        (lenCmp [2] [] < 0 → s1.merge = some 2 ∧ s1.left = some 3 ∧ s1.right = some 3) ∧
        (0 ≤ lenCmp [2] [] → s1.merge = some 3 ∧ s1.left = some 2 ∧ s1.right = none) ∧
        ((none : Ptr) = none → s1.head = s1.merge ∧ s1.heap = sampleHeap) ∧
        (∀ z, (none : Ptr) = some z →
          s1.head = some 2 ∧ ∃ c, cell s1.heap z = some c ∧ c.next = s1.merge) :=
  ⟨rfl, rfl,
    merge_step_choice lenCmp sampleHeap (some 2) none 2 3 { value := [2], next := some 3 }
      { value := [], next := none } rfl rfl (Or.inl rfl)⟩

/-! ## Sorting twice, sorting the reversal -/

theorem cmp_zero_of_le {cmp : CStr → CStr → Int}
    (hanti : ∀ x y, Int.sign (cmp x y) = -Int.sign (cmp y x)) {x y : CStr}
    (h1 : cmp x y ≤ 0) (h2 : cmp y x ≤ 0) : cmp x y = 0 := by
  have hs := hanti x y
  rcases Int.lt_trichotomy (cmp x y) 0 with h | h | h
  · rw [Int.sign_eq_neg_one_of_neg h] at hs
    have h3 : Int.sign (cmp y x) = 1 := by omega
    have := Int.sign_eq_one_iff_pos.mp h3
    omega
  · exact h
  · omega

theorem sortL_sorted (cmp : CStr → CStr → Int)
    (hanti : ∀ x y, Int.sign (cmp x y) = -Int.sign (cmp y x))
    (htrans : ∀ x y z, cmp x y ≤ 0 → cmp y z ≤ 0 → cmp x z ≤ 0) (m : Heap) (xs : List Nat) :
    (sortL (ltOf cmp m) xs).Pairwise (fun a b => cmp (valueAt m a) (valueAt m b) ≤ 0) :=
  sortL_pairwise (ltOf cmp m) (fun a b => cmp (valueAt m a) (valueAt m b) ≤ 0)
    (fun a b h => by
      have : cmp (valueAt m a) (valueAt m b) < 0 := of_decide_eq_true h
      omega)
    (fun a b h => cmp_flip hanti (of_decide_eq_false h))
    (fun a b c => htrans _ _ _) xs.length xs (Nat.le_refl _)

theorem sorted_nodes_unique {cmp : CStr → CStr → Int}
    (hanti : ∀ x y, Int.sign (cmp x y) = -Int.sign (cmp y x)) (key : Nat → CStr)
    {ys zs : List Nat} (hy : ys.Pairwise (fun a b => cmp (key a) (key b) ≤ 0))
    (hz : zs.Pairwise (fun a b => cmp (key a) (key b) ≤ 0)) (hp : ys.Perm zs)
    (hne : ∀ a ∈ ys, ∀ b ∈ ys, a ≠ b → cmp (key a) (key b) ≠ 0) : ys = zs := by
  refine List.Perm.eq_of_sorted ?_ hy hz hp
  intro a b ha hb hab hba
  by_contra hdiff
  exact hne a ha b (hp.mem_iff.mpr hb) hdiff (cmp_zero_of_le hanti hab hba)

theorem sorted_values_unique {cmp : CStr → CStr → Int}
    (hanti : ∀ x y, Int.sign (cmp x y) = -Int.sign (cmp y x))
    (hzero : ∀ x y, cmp x y = 0 → x = y) {l1 l2 : List CStr}
    (h1 : l1.Pairwise (fun x y => cmp x y ≤ 0)) (h2 : l2.Pairwise (fun x y => cmp x y ≤ 0))
    (hp : l1.Perm l2) : l1 = l2 :=
  List.Perm.eq_of_sorted (fun x y _ _ hxy hyx => hzero x y (cmp_zero_of_le hanti hxy hyx))
    h1 h2 hp

/-- C14, counterexample: the two cells of `tieQueue` hold the same string.
One `q_sort` (with the natural comparator, and likewise with the length order)
leaves the cells in the order 1, 0; a second `q_sort` leaves them in the order
0, 1, which is not the order after the first. -/
theorem q_sort_twice_differs :
    IsQueue tieHeap tieQueue [0, 1] ∧
      q_sort strnatcmp 3 tieHeap (some tieQueue) =
        .ok ([some { value := [97], next := none }, some { value := [97], next := some 0 }],
          some { head := some 1, tail := some 0, size := 2 }) ∧
      IsQueue [some { value := [97], next := none }, some { value := [97], next := some 0 }]
        { head := some 1, tail := some 0, size := 2 } [1, 0] ∧
      q_sort strnatcmp 3
          [some { value := [97], next := none }, some { value := [97], next := some 0 }]
          (some { head := some 1, tail := some 0, size := 2 }) =
        .ok (tieHeap, some tieQueue) ∧
      q_sort lenCmp 3 tieHeap (some tieQueue) =
        .ok ([some { value := [97], next := none }, some { value := [97], next := some 0 }],
          some { head := some 1, tail := some 0, size := 2 }) ∧
      q_sort lenCmp 3
          [some { value := [97], next := none }, some { value := [97], next := some 0 }]
          (some { head := some 1, tail := some 0, size := 2 }) =
        .ok (tieHeap, some tieQueue) ∧
      ([0, 1] : List Nat) ≠ [1, 0] := by
  decide

/-- C14, amended: with a sign-antisymmetric and transitive comparator, two
calls of `q_sort` in a row on a valid queue succeed (given enough fuel); when
no two distinct cells of the queue compare equal, the order of the cells after
the second call is the order after the first, and when the comparator returns
zero only on equal strings, the sequence of strings after the second call is
the sequence after the first. -/
theorem q_sort_idempotent (cmp : CStr → CStr → Int)
    (hanti : ∀ x y, Int.sign (cmp x y) = -Int.sign (cmp y x))
    (htrans : ∀ x y z, cmp x y ≤ 0 → cmp y z ≤ 0 → cmp x z ≤ 0)
    (m : Heap) (q : queue_t) (xs : List Nat) (hq : IsQueue m q xs)
    (fuel : Nat) (hf : xs.length < fuel) :
    ∃ m1 q1 ys m2 q2 zs, q_sort cmp fuel m (some q) = .ok (m1, some q1) ∧ IsQueue m1 q1 ys ∧
      q_sort cmp fuel m1 (some q1) = .ok (m2, some q2) ∧ IsQueue m2 q2 zs ∧
      ((∀ a ∈ xs, ∀ b ∈ xs, a ≠ b → cmp (valueAt m a) (valueAt m b) ≠ 0) →
        zs = ys ∧ q2 = q1) ∧
      ((∀ x y, cmp x y = 0 → x = y) → zs.map (valueAt m2) = ys.map (valueAt m1)) := by
  obtain ⟨m1, q1, hrun1, hq1, _, _, _, hval1⟩ := q_sort_spec cmp hq hf
  have hlen1 : (sortL (ltOf cmp m) xs).length < fuel := by rw [sortL_length]; exact hf
  obtain ⟨m2, q2, hrun2, hq2, _, _, _, hval2⟩ := q_sort_spec cmp hq1 hlen1
  have hp1 := sortL_perm (ltOf cmp m) xs.length xs (Nat.le_refl _)
  have hp2 := sortL_perm (ltOf cmp m1) _ (sortL (ltOf cmp m) xs) (Nat.le_refl _)
  have hs1 := sortL_sorted cmp hanti htrans m xs
  have hs2 : (sortL (ltOf cmp m1) (sortL (ltOf cmp m) xs)).Pairwise
      (fun a b => cmp (valueAt m a) (valueAt m b) ≤ 0) := by
    refine (sortL_sorted cmp hanti htrans m1 _).imp ?_
    intro a b hab
    rw [← hval1 a, ← hval1 b]; exact hab
  refine ⟨m1, q1, _, m2, q2, _, hrun1, hq1, hrun2, hq2, ?_, ?_⟩
  · intro hne
    have heq : sortL (ltOf cmp m1) (sortL (ltOf cmp m) xs) = sortL (ltOf cmp m) xs :=
      sorted_nodes_unique hanti (valueAt m) hs2 hs1 hp2 (by
        intro a ha b hb hab
        exact hne a (hp1.mem_iff.mp (hp2.mem_iff.mp ha)) b (hp1.mem_iff.mp (hp2.mem_iff.mp hb))
          hab)
    refine ⟨heq, ?_⟩
    rw [IsQueue_record hq2, IsQueue_record hq1, heq]
  · intro hzero
    have hv2 : valueAt m2 = valueAt m := funext fun a => by rw [hval2 a, hval1 a]
    have hv1 : valueAt m1 = valueAt m := funext hval1
    rw [hv2, hv1]
    exact sorted_values_unique hanti hzero (List.pairwise_map.mpr hs2)
      (List.pairwise_map.mpr hs1) (hp2.map _)

/-- Witness for C14, amended: the cells 1, 2, 3 of the sample heap, whose
strings have three different lengths. -/
theorem q_sort_idempotent_witness :
    IsQueue sampleHeap { head := some 1, tail := some 3, size := 3 } [1, 2, 3] ∧
      (∀ a ∈ [1, 2, 3], ∀ b ∈ [1, 2, 3], a ≠ b →
        lenCmp (valueAt sampleHeap a) (valueAt sampleHeap b) ≠ 0) ∧
      ∃ m1 q1 ys m2 q2 zs,
        q_sort lenCmp 4 sampleHeap (some { head := some 1, tail := some 3, size := 3 }) =
          .ok (m1, some q1) ∧
        IsQueue m1 q1 ys ∧ q_sort lenCmp 4 m1 (some q1) = .ok (m2, some q2) ∧
        IsQueue m2 q2 zs ∧
        ((∀ a ∈ [1, 2, 3], ∀ b ∈ [1, 2, 3], a ≠ b →
            lenCmp (valueAt sampleHeap a) (valueAt sampleHeap b) ≠ 0) →
          zs = ys ∧ q2 = q1) ∧
        ((∀ x y, lenCmp x y = 0 → x = y) → zs.map (valueAt m2) = ys.map (valueAt m1)) :=
  ⟨by decide, by decide,
    q_sort_idempotent lenCmp lenCmp_anti lenCmp_trans sampleHeap
      { head := some 1, tail := some 3, size := 3 } [1, 2, 3] (by decide) 4 (by decide)⟩

theorem q_sort_reverse_spec (cmp : CStr → CStr → Int)
    (hanti : ∀ x y, Int.sign (cmp x y) = -Int.sign (cmp y x))
    (htrans : ∀ x y z, cmp x y ≤ 0 → cmp y z ≤ 0 → cmp x z ≤ 0)
    (m : Heap) (q : queue_t) (xs : List Nat) (hq : IsQueue m q xs)
    (fuel : Nat) (hf : xs.length < fuel) :
    ∃ mA qA ys m1 q1 mB qB zs, q_sort cmp fuel m (some q) = .ok (mA, some qA) ∧
      IsQueue mA qA ys ∧ q_reverse fuel m (some q) = .ok (m1, some q1) ∧
      q_sort cmp fuel m1 (some q1) = .ok (mB, some qB) ∧ IsQueue mB qB zs ∧
      ((∀ a ∈ xs, ∀ b ∈ xs, a ≠ b → cmp (valueAt m a) (valueAt m b) ≠ 0) →
        zs = ys ∧ qB = qA) ∧
      ((∀ x y, cmp x y = 0 → x = y) → zs.map (valueAt mB) = ys.map (valueAt mA)) := by
  obtain ⟨mA, qA, hrunA, hqA, _, _, _, hvalA⟩ := q_sort_spec cmp hq hf
  obtain ⟨m1, hrev, hq1, _, _, hval1⟩ := q_reverse_spec hq hf
  have hlen1 : xs.reverse.length < fuel := by rw [List.length_reverse]; exact hf
  obtain ⟨mB, qB, hrunB, hqB, _, _, _, hvalB⟩ := q_sort_spec cmp hq1 hlen1
  have hpA := sortL_perm (ltOf cmp m) xs.length xs (Nat.le_refl _)
  have hpB := sortL_perm (ltOf cmp m1) _ xs.reverse (Nat.le_refl _)
  have hp : (sortL (ltOf cmp m1) xs.reverse).Perm (sortL (ltOf cmp m) xs) :=
    (hpB.trans (List.reverse_perm xs)).trans hpA.symm
  have hsA := sortL_sorted cmp hanti htrans m xs
  have hsB : (sortL (ltOf cmp m1) xs.reverse).Pairwise
      (fun a b => cmp (valueAt m a) (valueAt m b) ≤ 0) := by
    refine (sortL_sorted cmp hanti htrans m1 _).imp ?_
    intro a b hab
    rw [← hval1 a, ← hval1 b]; exact hab
  refine ⟨mA, qA, _, m1, _, mB, qB, _, hrunA, hqA, hrev, hrunB, hqB, ?_, ?_⟩
  · intro hne
    have heq : sortL (ltOf cmp m1) xs.reverse = sortL (ltOf cmp m) xs :=
      sorted_nodes_unique hanti (valueAt m) hsB hsA hp (by
        intro a ha b hb hab
        exact hne a (hpA.mem_iff.mp (hp.mem_iff.mp ha)) b (hpA.mem_iff.mp (hp.mem_iff.mp hb))
          hab)
    refine ⟨heq, ?_⟩
    rw [IsQueue_record hqB, IsQueue_record hqA, heq]
  · intro hzero
    have hvB : valueAt mB = valueAt m := funext fun a => by rw [hvalB a, hval1 a]
    have hvA : valueAt mA = valueAt m := funext hvalA
    rw [hvB, hvA]
    exact sorted_values_unique hanti hzero (List.pairwise_map.mpr hsB)
      (List.pairwise_map.mpr hsA) (hp.map _)

/-- C15: on a valid queue (already non-decreasing or not), `q_sort` and
`q_reverse` followed by `q_sort`, both sorting with the natural comparator,
succeed (given enough fuel) and leave queues whose head-to-tail traversals
show the same sequence of strings. -/
theorem q_sort_reverse_agree (m : Heap) (q : queue_t) (xs : List Nat) (hq : IsQueue m q xs)
    (fuel : Nat) (hf : xs.length < fuel) :
    ∃ mA qA ys m1 q1 mB qB zs, q_sort strnatcmp fuel m (some q) = .ok (mA, some qA) ∧
      IsQueue mA qA ys ∧ q_reverse fuel m (some q) = .ok (m1, some q1) ∧
      q_sort strnatcmp fuel m1 (some q1) = .ok (mB, some qB) ∧ IsQueue mB qB zs ∧
      zs.map (valueAt mB) = ys.map (valueAt mA) := by
  obtain ⟨mA, qA, ys, m1, q1, mB, qB, zs, hA, hqA, hrev, hB, hqB, _, hvals⟩ :=
    q_sort_reverse_spec strnatcmp strnatcmp_sign strnatcmp_trans m q xs hq fuel hf
  exact ⟨mA, qA, ys, m1, q1, mB, qB, zs, hA, hqA, hrev, hB, hqB, hvals strnatcmp_zero⟩

/-- Witness for C15: the queue of `pairHeap`, whose traversal 97, 98 is
non-decreasing. -/
theorem q_sort_reverse_agree_witness :
    IsQueue pairHeap tieQueue [0, 1] ∧ [0, 1].length < 3 ∧
      ∃ mA qA ys m1 q1 mB qB zs,
        q_sort strnatcmp 3 pairHeap (some tieQueue) = .ok (mA, some qA) ∧
        IsQueue mA qA ys ∧ q_reverse 3 pairHeap (some tieQueue) = .ok (m1, some q1) ∧
        q_sort strnatcmp 3 m1 (some q1) = .ok (mB, some qB) ∧ IsQueue mB qB zs ∧
        zs.map (valueAt mB) = ys.map (valueAt mA) :=
  ⟨by decide, by decide, q_sort_reverse_agree pairHeap tieQueue [0, 1] (by decide) 3 (by decide)⟩

/-! ## The phases of `divide_and_conquer` -/

theorem split_phase_spec {m : Heap} {head : Ptr} {xs : List Nat} (hc : Chain m head xs)
    (h2 : 2 ≤ xs.length) {fuel : Nat} (hf : (xs.length - 1) / 2 < fuel) :
    ∃ m1 right, split_phase fuel m head = .ok (m1, right) ∧
      Chain m1 head (xs.take ((xs.length + 1) / 2)) ∧
      Chain m1 right (xs.drop ((xs.length + 1) / 2)) ∧ m1.length = m.length ∧
      (∀ b, valueAt m1 b = valueAt m b) ∧ (∀ b, b ∉ xs → cell m1 b = cell m b) ∧
      ∃ z c, (xs.take ((xs.length + 1) / 2)).getLast? = some z ∧ cell m1 z = some c ∧
        c.next = none := by
  obtain ⟨a, b, r, hx⟩ : ∃ a b r, xs = a :: b :: r := by
    match xs, h2 with
    | [], h => simp at h
    | [_], h => simp at h
    | a :: b :: r, _ => exact ⟨a, b, r, rfl⟩
  have hnd := Chain_nodup hc
  obtain ⟨ha, hcell, hca, ht⟩ := Seg_cons.mp (hx ▸ hc)
  have hk : (b :: r).length / 2 + 1 = (xs.length + 1) / 2 := by
    rw [hx]; simp only [List.length_cons]; omega
  have hn : xs.length = r.length + 2 := by rw [hx]; rfl
  obtain ⟨p, hsplit, hp⟩ := split_loop_spec fuel m xs (b :: r) head hcell.next hc ht
    (by simp only [List.length_cons] at hn ⊢; omega)
    (by simp only [List.length_cons] at hn ⊢; omega)
  have hklt : (b :: r).length / 2 < xs.length := by
    simp only [List.length_cons] at hn ⊢; omega
  rw [List.drop_eq_getElem_cons hklt, hk] at hp
  obtain ⟨hpz, zc, hzc, hR⟩ := Seg_cons.mp hp
  have hsplitx : xs = xs.take ((b :: r).length / 2) ++
      xs[(b :: r).length / 2] :: xs.drop ((xs.length + 1) / 2) := by
    conv_lhs => rw [← List.take_append_drop ((b :: r).length / 2) xs,
      List.drop_eq_getElem_cons hklt, hk]
  have hL : xs.take ((xs.length + 1) / 2) =
      xs.take ((b :: r).length / 2) ++ [xs[(b :: r).length / 2]] := by
    rw [← hk, List.take_succ, List.getElem?_eq_getElem hklt]; rfl
  generalize xs[(b :: r).length / 2] = z at hp hpz hzc hsplitx hL
  generalize xs.take ((b :: r).length / 2) = T at hsplitx hL
  generalize xs.drop ((xs.length + 1) / 2) = R at hR hsplitx
  generalize xs.take ((xs.length + 1) / 2) = L at hL
  have hnd2 := hnd
  rw [hsplitx] at hnd2
  have hzT : z ∉ T := fun h =>
    List.disjoint_of_nodup_append hnd2 h (List.mem_cons_self _ _)
  have hzR : z ∉ R := (List.nodup_cons.mp (List.Nodup.of_append_right hnd2)).1
  have hc1 := hc
  rw [hsplitx] at hc1
  obtain ⟨r0, hT, hzseg⟩ := Seg_append.mp hc1
  obtain ⟨hr0, _⟩ := Seg_cons.mp hzseg
  subst hr0
  refine ⟨m.set z (some (list_ele_t.mk zc.value none)), zc.next, ?_, ?_, Seg_set hzR _ hR,
    by simp, fun b => valueAt_set_next hzc none b, ?_, z, _, ?_, cell_set_self hzc _, rfl⟩
  · subst ha
    simp only [split_phase, load_some hca, Res.ok_bind, hsplit, hpz, load_some hzc,
      store_next_some hzc]
  · rw [hL]
    exact Seg_snoc.mpr ⟨Seg_set hzT _ hT, _, cell_set_self hzc _, rfl⟩
  · intro x hx2
    apply cell_set_ne
    rintro rfl
    exact hx2 (by rw [hsplitx]; simp)
  · rw [hL]; simp

theorem divide_and_conquer_succ (cmp : CStr → CStr → Int) (fuel : Nat) (m : Heap) (a b : Nat)
    (c : list_ele_t) (hca : cell m a = some c) (hb : c.next = some b) :
    divide_and_conquer cmp (fuel + 1) m (some a) =
      (split_phase fuel m (some a) >>= fun r1 =>
        divide_and_conquer cmp fuel r1.1 (some a) >>= fun r2 =>
          divide_and_conquer cmp fuel r2.1 r1.2 >>= fun r3 =>
            merge_loop cmp fuel
                { heap := r3.1, head := some a, merge := none, left := r2.2, right := r3.2 } >>=
              fun s =>
                store_next s.heap s.merge (remainder s.left s.right) >>= fun m4 =>
                  Res.ok (m4, s.head)) := by
  simp only [divide_and_conquer, split_phase, load_some hca, Res.ok_bind, hb,
    Res.bind_assoc]

theorem divide_and_conquer_phases (cmp : CStr → CStr → Int) {m : Heap} {head : Ptr}
    {xs : List Nat} (hc : Chain m head xs) (h2 : 2 ≤ xs.length) {fuel : Nat}
    (hf : xs.length ≤ fuel) :
    ∃ m1 right m2 left m3 right1 s m4,
      split_phase fuel m head = .ok (m1, right) ∧
      Chain m1 head (xs.take ((xs.length + 1) / 2)) ∧
      Chain m1 right (xs.drop ((xs.length + 1) / 2)) ∧
      divide_and_conquer cmp fuel m1 head = .ok (m2, left) ∧
      Chain m2 right (xs.drop ((xs.length + 1) / 2)) ∧
      divide_and_conquer cmp fuel m2 right = .ok (m3, right1) ∧
      Chain m3 left (sortL (ltOf cmp m) (xs.take ((xs.length + 1) / 2))) ∧
      Chain m3 right1 (sortL (ltOf cmp m) (xs.drop ((xs.length + 1) / 2))) ∧
      merge_loop cmp fuel
          { heap := m3, head := head, merge := none, left := left, right := right1 } =
        .ok s ∧
      store_next s.heap s.merge (remainder s.left s.right) = .ok m4 ∧
      Chain m4 s.head (sortL (ltOf cmp m) xs) ∧
      divide_and_conquer cmp (fuel + 1) m head = .ok (m4, s.head) := by
  obtain ⟨m1, right, hsplit, hL, hR, _, hval1, _, _⟩ :=
    split_phase_spec hc h2 (show (xs.length - 1) / 2 < fuel by omega)
  have hnd := Chain_nodup hc
  rw [← List.take_append_drop ((xs.length + 1) / 2) xs] at hnd
  have hLlen : (xs.take ((xs.length + 1) / 2)).length = (xs.length + 1) / 2 := by
    rw [List.length_take]; omega
  have hRlen : (xs.drop ((xs.length + 1) / 2)).length = xs.length - (xs.length + 1) / 2 := by
    rw [List.length_drop]
  generalize hLdef : xs.take ((xs.length + 1) / 2) = L at hL hnd hLlen
  generalize hRdef : xs.drop ((xs.length + 1) / 2) = R at hR hnd hRlen
  have hLR : ∀ x ∈ L, x ∉ R := fun x hx hx2 => List.disjoint_of_nodup_append hnd hx hx2
  obtain ⟨m2, l1, hrunL, hsL, _, hfr2, hval2⟩ :=
    divide_and_conquer_spec cmp (ltOf cmp m) fuel m1 head L
      (fun x y => by rw [ltOf_congr cmp hval1]) hL (by omega)
  have hR2 : Chain m2 right R := Seg_frame (fun x hx => hfr2 x (fun h => hLR x h hx)) hR
  have hval12 : ∀ b, valueAt m2 b = valueAt m b := fun b => by rw [hval2 b, hval1 b]
  obtain ⟨m3, r1, hrunR, hsR, _, hfr3, hval3⟩ :=
    divide_and_conquer_spec cmp (ltOf cmp m) fuel m2 right R
      (fun x y => by rw [ltOf_congr cmp hval12]) hR2 (by omega)
  have hsL3 : Chain m3 l1 (sortL (ltOf cmp m) L) :=
    Seg_frame (fun x hx => hfr3 x (hLR x ((sortL_mem _ L x).mp hx))) hsL
  have hval13 : ∀ b, valueAt m3 b = valueAt m b := fun b => by rw [hval3 b, hval12 b]
  obtain ⟨s1, m4, hrunM, hst4, hch4, _, _, _⟩ :=
    merge_loop_spec cmp (ltOf cmp m) fuel m3 head none l1 r1 [] (sortL (ltOf cmp m) L)
      (sortL (ltOf cmp m) R) (fun x y => by rw [ltOf_congr cmp hval13]) hsL3 hsR
      (Or.inl ⟨rfl, rfl⟩) List.nodup_nil (fun _ h => by cases h)
      (fun x hx h => hLR x ((sortL_mem _ L x).mp hx) ((sortL_mem _ R x).mp h))
      (Or.inr ⟨fun h => by
          have := congrArg List.length h
          rw [sortL_length, hLlen, List.length_nil] at this
          omega,
        fun h => by
          have := congrArg List.length h
          rw [sortL_length, hRlen, List.length_nil] at this
          omega⟩)
      (by rw [sortL_length, sortL_length]; omega) (by omega)
  have hsort : sortL (ltOf cmp m) xs =
      mergeL (ltOf cmp m) (sortL (ltOf cmp m) L) (sortL (ltOf cmp m) R) := by
    rw [sortL_big _ (show ¬ xs.length < 2 by omega), hLdef, hRdef]
  refine ⟨m1, right, m2, l1, m3, r1, s1, m4, hsplit, hL, hR, hrunL, hR2, hrunR, hsL3, hsR,
    hrunM, hst4, ?_, ?_⟩
  · rw [hsort]
    simpa using hch4
  · obtain ⟨a, b, r, hx⟩ : ∃ a b r, xs = a :: b :: r := by
      match xs, h2 with
      | [], h => simp at h
      | [_], h => simp at h
      | a :: b :: r, _ => exact ⟨a, b, r, rfl⟩
    obtain ⟨ha, c, hca, ht⟩ := Seg_cons.mp (hx ▸ hc)
    obtain ⟨hb, _⟩ := Seg_cons.mp ht
    subst ha
    rw [divide_and_conquer_succ cmp fuel m a b c hca hb, hsplit]
    simp only [Res.ok_bind, hrunL, hrunR, hrunM, hst4]

/-- C17: on a chain of `n ≥ 2` cells the split of `divide_and_conquer` (the
fast/slow walk and the cut) returns, given enough fuel, with the chain cut in
two: from `head` a left chain of exactly `(n + 1) / 2` cells, from `right` a
right chain of exactly `n / 2` cells; the last cell of the left chain has
`next` `NULL`, and left followed by right is the original chain. -/
theorem split_halves (m : Heap) (head : Ptr) (xs : List Nat) (hc : Chain m head xs)
    (h2 : 2 ≤ xs.length) (fuel : Nat) (hf : (xs.length - 1) / 2 < fuel) :
    ∃ m1 right L R, split_phase fuel m head = .ok (m1, right) ∧ Chain m1 head L ∧
      Chain m1 right R ∧ L.length = (xs.length + 1) / 2 ∧ R.length = xs.length / 2 ∧
      L ++ R = xs ∧ (∃ z c, L.getLast? = some z ∧ cell m1 z = some c ∧ c.next = none) ∧
      (∀ b, valueAt m1 b = valueAt m b) := by
  obtain ⟨m1, right, hsplit, hL, hR, _, hval, _, hlast⟩ := split_phase_spec hc h2 hf
  refine ⟨m1, right, _, _, hsplit, hL, hR, ?_, ?_, List.take_append_drop _ xs, hlast, hval⟩
  · rw [List.length_take]; omega
  · rw [List.length_drop]; omega

/-- Witness for C17: the chain 0, 1, 2, 3 of the sample heap. -/
theorem split_halves_witness :
    Chain sampleHeap (some 0) [0, 1, 2, 3] ∧
      ∃ m1 right L R, split_phase 2 sampleHeap (some 0) = .ok (m1, right) ∧
        Chain m1 (some 0) L ∧ Chain m1 right R ∧ L.length = ([0, 1, 2, 3].length + 1) / 2 ∧
        R.length = [0, 1, 2, 3].length / 2 ∧ L ++ R = [0, 1, 2, 3] ∧
        (∃ z c, L.getLast? = some z ∧ cell m1 z = some c ∧ c.next = none) ∧
        (∀ b, valueAt m1 b = valueAt sampleHeap b) :=
  ⟨by decide, split_halves sampleHeap (some 0) [0, 1, 2, 3] (by decide) (by decide) 2 (by decide)⟩

theorem divide_and_conquer_base (cmp : CStr → CStr → Int) {m : Heap} {head : Ptr}
    {xs : List Nat} (hc : Chain m head xs) (h1 : xs.length ≤ 1) (fuel : Nat) :
    divide_and_conquer cmp (fuel + 1) m head = .ok (m, head) := by
  cases xs with
  | nil =>
    have : head = none := hc
    subst this
    simp only [divide_and_conquer]
  | cons a t =>
    obtain ⟨ha, c, hca, ht⟩ := Seg_cons.mp hc
    subst ha
    have htn : t = [] := List.length_eq_zero.mp (by simp only [List.length_cons] at h1; omega)
    subst htn
    have hn : c.next = none := ht
    simp only [divide_and_conquer, load_some hca, Res.ok_bind, hn]

/-- C18: `divide_and_conquer` terminates on every chain that ends in `NULL`:
with fuel above the length `n` of the chain it returns a result. A chain of
zero or one cell is returned unchanged already with fuel 1, so without a
recursive call. On a chain of `n ≥ 2` cells the split succeeds and the two
recursive calls receive the chains `L` and `R` it leaves, each of at least
one and fewer than `n` cells, and both calls return. -/
theorem divide_and_conquer_terminates (cmp : CStr → CStr → Int) (m : Heap) (head : Ptr)
    (xs : List Nat) (hc : Chain m head xs) (fuel : Nat) (hf : xs.length ≤ fuel) :
    (∃ m1 head1, divide_and_conquer cmp (fuel + 1) m head = .ok (m1, head1)) ∧
    (xs.length ≤ 1 → divide_and_conquer cmp 1 m head = .ok (m, head)) ∧
    (2 ≤ xs.length →
      ∃ m1 right m2 left m3 right1 L R, split_phase fuel m head = .ok (m1, right) ∧
        Chain m1 head L ∧ divide_and_conquer cmp fuel m1 head = .ok (m2, left) ∧
        Chain m2 right R ∧ divide_and_conquer cmp fuel m2 right = .ok (m3, right1) ∧
        L ++ R = xs ∧ 1 ≤ L.length ∧ L.length < xs.length ∧ 1 ≤ R.length ∧
        R.length < xs.length) := by
  refine ⟨?_, fun h1 => divide_and_conquer_base cmp hc h1 0, ?_⟩
  · obtain ⟨m1, head1, hrun, _⟩ :=
      divide_and_conquer_spec cmp (ltOf cmp m) (fuel + 1) m head xs (fun _ _ => rfl) hc
        (by omega)
    exact ⟨m1, head1, hrun⟩
  · intro h2
    obtain ⟨m1, right, m2, left, m3, right1, _, _, hsplit, hL, _, hrunL, hR2, hrunR, _⟩ :=
      divide_and_conquer_phases cmp hc h2 hf
    refine ⟨m1, right, m2, left, m3, right1, _, _, hsplit, hL, hrunL, hR2, hrunR,
      List.take_append_drop _ xs, ?_, ?_, ?_, ?_⟩
    · rw [List.length_take]; omega
    · rw [List.length_take]; omega
    · rw [List.length_drop]; omega
    · rw [List.length_drop]; omega

/-- Witness for C18: the chain 0, 1, 2, 3 of the sample heap. -/
theorem divide_and_conquer_terminates_witness :
    Chain sampleHeap (some 0) [0, 1, 2, 3] ∧
      ((∃ m1 head1, divide_and_conquer lenCmp (4 + 1) sampleHeap (some 0) = .ok (m1, head1)) ∧
      ([0, 1, 2, 3].length ≤ 1 →
        divide_and_conquer lenCmp 1 sampleHeap (some 0) = .ok (sampleHeap, some 0)) ∧
      (2 ≤ [0, 1, 2, 3].length →
        ∃ m1 right m2 left m3 right1 L R, split_phase 4 sampleHeap (some 0) = .ok (m1, right) ∧
          Chain m1 (some 0) L ∧ divide_and_conquer lenCmp 4 m1 (some 0) = .ok (m2, left) ∧
          Chain m2 right R ∧ divide_and_conquer lenCmp 4 m2 right = .ok (m3, right1) ∧
          L ++ R = [0, 1, 2, 3] ∧ 1 ≤ L.length ∧ L.length < [0, 1, 2, 3].length ∧
          1 ≤ R.length ∧ R.length < [0, 1, 2, 3].length)) :=
  ⟨by decide,
    divide_and_conquer_terminates lenCmp sampleHeap (some 0) [0, 1, 2, 3] (by decide) 4
      (by decide)⟩

theorem store_next_ok_inv {m m1 : Heap} {p nx : Ptr} (h : store_next m p nx = .ok m1) :
    ∃ z c, p = some z ∧ cell m z = some c := by
  cases p with
  | none => simp [store_next] at h
  | some z =>
    cases hc : cell m z with
    | none => simp [store_next, hc] at h
    | some c => exact ⟨z, c, rfl, hc⟩

theorem Chain_some {m : Heap} {p : Ptr} {xs : List Nat} (hc : Chain m p xs) (hne : xs ≠ []) :
    ∃ a c, p = some a ∧ cell m a = some c := by
  cases xs with
  | nil => exact absurd rfl hne
  | cons a t =>
    obtain ⟨hp, c, hca, _⟩ := Seg_cons.mp hc
    exact ⟨a, c, hp, hca⟩

theorem sortL_ne_nil (lt : Nat → Nat → Bool) {xs : List Nat} (h : xs ≠ []) :
    sortL lt xs ≠ [] := by
  intro h0
  have := congrArg List.length h0
  rw [sortL_length, List.length_nil] at this
  exact h (List.length_eq_zero.mp this)

/-- C19: on a chain of `n ≥ 2` cells, with enough fuel, both recursive calls of
`divide_and_conquer` return non-NULL chains, so the merge loop runs its body at
least once; it ends with `merge` pointing at a live cell, so the assignment to
`merge->next` after the loop does not fault, and the head returned is a live
cell. For a queue over such a chain the walk of `q_sort` to the tail
starts from that cell and `q_sort` returns without a fault. -/
theorem sort_no_null_dereference (cmp : CStr → CStr → Int) (m : Heap) (head : Ptr)
    (xs : List Nat) (hc : Chain m head xs) (h2 : 2 ≤ xs.length) (fuel : Nat)
    (hf : xs.length ≤ fuel) :
    (∃ m1 right m2 left m3 right1 s m4 a b,
      split_phase fuel m head = .ok (m1, right) ∧
      divide_and_conquer cmp fuel m1 head = .ok (m2, left) ∧
      divide_and_conquer cmp fuel m2 right = .ok (m3, right1) ∧
      left = some a ∧ right1 = some b ∧
      merge_loop cmp fuel
          { heap := m3, head := head, merge := none, left := left, right := right1 } =
        (merge_step cmp
            { heap := m3, head := head, merge := none, left := left, right := right1 } >>=
          merge_loop cmp (fuel - 1)) ∧
      merge_loop cmp fuel
          { heap := m3, head := head, merge := none, left := left, right := right1 } =
        .ok s ∧
      (∃ z c, s.merge = some z ∧ cell s.heap z = some c) ∧
      store_next s.heap s.merge (remainder s.left s.right) = .ok m4 ∧
      divide_and_conquer cmp (fuel + 1) m head = .ok (m4, s.head) ∧
      ∃ h c, s.head = some h ∧ cell m4 h = some c) ∧
    (∀ q : queue_t, q.head = head → q.size = xs.length →
      ∃ m4 h c tl, divide_and_conquer cmp (fuel + 1) m q.head = .ok (m4, some h) ∧
        cell m4 h = some c ∧ tail_loop (fuel + 1) m4 (some h) = .ok tl ∧
        q_sort cmp (fuel + 1) m (some q) =
          .ok (m4, some { head := some h, tail := tl, size := q.size })) := by
  obtain ⟨m1, right, m2, left, m3, right1, s, m4, hsplit, _, _, hrunL, _, hrunR, hsL, hsR,
    hrunM, hst4, hch4, hrun⟩ := divide_and_conquer_phases cmp hc h2 hf
  have hxs : xs ≠ [] := by
    intro h; rw [h] at h2; simp at h2
  have hLne : xs.take ((xs.length + 1) / 2) ≠ [] := by
    intro h
    have := congrArg List.length h
    rw [List.length_take, List.length_nil] at this
    omega
  have hRne : xs.drop ((xs.length + 1) / 2) ≠ [] := by
    intro h
    have := congrArg List.length h
    rw [List.length_drop, List.length_nil] at this
    omega
  obtain ⟨a, _, hla, _⟩ := Chain_some hsL (sortL_ne_nil _ hLne)
  obtain ⟨b, _, hrb, _⟩ := Chain_some hsR (sortL_ne_nil _ hRne)
  obtain ⟨h, c, hh, hhc⟩ := Chain_some hch4 (sortL_ne_nil _ hxs)
  constructor
  · refine ⟨m1, right, m2, left, m3, right1, s, m4, a, b, hsplit, hrunL, hrunR, hla, hrb, ?_,
      hrunM, store_next_ok_inv hst4, hst4, hrun, h, c, hh, hhc⟩
    have key := merge_loop_succ cmp (fuel - 1)
      { heap := m3, head := head, merge := none, left := left, right := right1 } a b hla hrb
    rw [Nat.sub_add_cancel (by omega)] at key
    exact key
  · intro q hqh hqs
    have htl := tail_loop_spec (fuel + 1) m4 _ s.head hch4 (sortL_ne_nil _ hxs)
      (by rw [sortL_length]; omega)
    rw [hh] at hrun htl
    refine ⟨m4, h, c, _, by rw [hqh]; exact hrun, hhc, htl, ?_⟩
    have h0 : q.size ≠ 0 := by omega
    have h1 : q.size ≠ 1 := by omega
    simp only [q_sort, h0, h1, if_false, hqh, hrun, Res.ok_bind, htl]

/-- Witness for C19: the chain 0, 1, 2, 3 of the sample heap. -/
theorem sort_no_null_dereference_witness :
    Chain sampleHeap (some 0) [0, 1, 2, 3] ∧
      ∃ m4 h c tl, divide_and_conquer lenCmp (4 + 1) sampleHeap sampleQueue.head =
          .ok (m4, some h) ∧
        cell m4 h = some c ∧ tail_loop (4 + 1) m4 (some h) = .ok tl ∧
        q_sort lenCmp (4 + 1) sampleHeap (some sampleQueue) =
          .ok (m4, some { head := some h, tail := tl, size := sampleQueue.size }) :=
  ⟨by decide,
    (sort_no_null_dereference lenCmp sampleHeap (some 0) [0, 1, 2, 3] (by decide) (by decide) 4
      (by decide)).2 sampleQueue rfl rfl⟩

/-! ## Reversal and the two ends -/

/-- C20: on a valid queue, with the allocations succeeding and enough fuel,
`q_insert_head` of `v` followed by `q_reverse` and `q_reverse` followed by
`q_insert_tail` of `v` both succeed and end with the same queue record (so
the same `head`, `tail` and `size`) over the same chain of cells, the reversed
old chain followed by the new cell, with the same strings. -/
theorem insert_head_reverse_commute (m : Heap) (q : queue_t) (xs : List Nat)
    (hq : IsQueue m q xs) (v : CStr) (fuel : Nat) (hf : xs.length + 1 < fuel) :
    ∃ mA1 qA1 mA mB1 qB1 mB q2,
      q_insert_head m (some q) v true true = (true, mA1, some qA1) ∧
      q_reverse fuel mA1 (some qA1) = .ok (mA, some q2) ∧
      q_reverse fuel m (some q) = .ok (mB1, some qB1) ∧
      q_insert_tail mB1 (some qB1) v true true = .ok (true, mB, some q2) ∧
      IsQueue mA q2 (xs.reverse ++ [m.length]) ∧ IsQueue mB q2 (xs.reverse ++ [m.length]) ∧
      (∀ a, valueAt mA a = valueAt mB a) ∧ valueAt mA m.length = v := by
  obtain ⟨qA1, hins, hqA1, _⟩ := q_insert_head_spec hq v
  obtain ⟨mA, hrevA, hqA, _, _, hvalA⟩ :=
    q_reverse_spec hqA1 (show (m.length :: xs).length < fuel by
      simp only [List.length_cons]; exact hf)
  obtain ⟨mB1, hrevB, hqB1, hlenB1, _, hvalB1⟩ :=
    q_reverse_spec hq (show xs.length < fuel by omega)
  obtain ⟨mB, qB, htail, hqB, _, hvB, holdB, _⟩ := q_insert_tail_spec hqB1 v
  rw [hlenB1] at hqB hvB holdB
  rw [List.reverse_cons] at hqA
  have hrec : qB = { head := qA1.tail, tail := qA1.head, size := qA1.size } := by
    rw [IsQueue_record hqB, IsQueue_record hqA]
  subst hrec
  have hvnew : valueAt (m ++ [some (list_ele_t.mk v q.head)]) m.length = v := by
    simp [valueAt, cell_append]
  refine ⟨_, qA1, mA, mB1, _, mB, _, hins, hrevA, hrevB, htail, hqA, hqB, ?_, ?_⟩
  · intro a
    by_cases ha : a = m.length
    · subst ha
      rw [hvalA, hvnew, hvB]
    · rw [hvalA, valueAt_push_old m _ ha, holdB a ha, hvalB1]
  · rw [hvalA, hvnew]

/-- Witness for C20 on the four-element sample queue. -/
theorem insert_head_reverse_commute_witness :
    IsQueue sampleHeap sampleQueue [0, 1, 2, 3] ∧
      ∃ mA1 qA1 mA mB1 qB1 mB q2,
        q_insert_head sampleHeap (some sampleQueue) [7] true true = (true, mA1, some qA1) ∧
        q_reverse 6 mA1 (some qA1) = .ok (mA, some q2) ∧
        q_reverse 6 sampleHeap (some sampleQueue) = .ok (mB1, some qB1) ∧
        q_insert_tail mB1 (some qB1) [7] true true = .ok (true, mB, some q2) ∧
        IsQueue mA q2 ([0, 1, 2, 3].reverse ++ [sampleHeap.length]) ∧
        IsQueue mB q2 ([0, 1, 2, 3].reverse ++ [sampleHeap.length]) ∧
        (∀ a, valueAt mA a = valueAt mB a) ∧ valueAt mA sampleHeap.length = [7] :=
  ⟨by decide,
    insert_head_reverse_commute sampleHeap sampleQueue [0, 1, 2, 3] (by decide) [7] 6
      (by decide)⟩

end QueueC
